import Mathlib

/-!
Verification development for the `nao-rustmask` low-complexity masker
(`src/rustmasker/src/lib.rs` and `src/mask_fastq/src/lib.rs`).

Modelling conventions:
* byte strings (`&[u8]`) are `List Nat`, each element a byte value
  (`'A' = 65`, `'C' = 67`, `'G' = 71`, `'T' = 84`, `'N' = 78`, `'#' = 35`,
  lowercase `a/c/g/t = 97/99/103/116`);
* `f64` arithmetic is modelled by exact real arithmetic on `ℝ`;
* a `HashMap<u32, usize>` of k-mer counts is modelled by its lookup
  function `Nat → Nat` (an absent key reads as count `0`; the source
  removes entries exactly when their count reaches `0`, so the two views
  coincide);
* the `ArrayEntropyTracker` stores `u16` counters.  Its operations are
  modelled in `Option`, returning `none` exactly when the corresponding
  Rust operation would be an arithmetic-overflow / index-out-of-bounds
  program error (a panic under Rust's checked arithmetic): `u16`
  increments past `65535`, `u16` decrements below `0`, and `Vec` index
  accesses out of bounds.  The silent truncating cast
  `window_kmers as u16` is modelled by `% 65536`.
-/

namespace RustMask

open Classical in
/-- Classical decidability, used for `if` tests on real-number comparisons
(`f64` comparisons in the source). -/
noncomputable scoped instance (priority := low) : ∀ (p : Prop), Decidable p :=
  fun p => Classical.propDecidable p

/-- The Rust slice `l[j..j+k]` (for the in-bounds uses made by the source;
out of range it truncates instead of panicking, and every use below is
in bounds under the well-formedness hypotheses carried by the theorems). -/
def slice (l : List Nat) (j k : Nat) : List Nat := (l.drop j).take k

/-- The write loop `for pos in a..b { l[pos] = v }` on a buffer, as a pure
function; `off` is the index of the head of the remaining list. -/
def paintFrom (v a b : Nat) : Nat → List Nat → List Nat
  | _, [] => []
  | off, x :: xs => (if a ≤ off ∧ off < b then v else x) :: paintFrom v a b (off + 1) xs

/-- Paint positions `[a, b)` of `l` with byte `v`. -/
def paint (v a b : Nat) (l : List Nat) : List Nat := paintFrom v a b 0 l

/-- The 2-bit base code from `encode_kmer` / `encode_triplet`:
`A/a ↦ 0b00`, `C/c ↦ 0b01`, `G/g ↦ 0b10`, `T/t ↦ 0b11`, anything else
(e.g. `N`) invalid. -/
def baseBits (b : Nat) : Option Nat :=
  if b = 65 ∨ b = 97 then some 0
  else if b = 67 ∨ b = 99 then some 1
  else if b = 71 ∨ b = 103 then some 2
  else if b = 84 ∨ b = 116 then some 3
  else none

/-- The packing loop of `encode_kmer`: `encoded = (encoded << 2) | bits`.
Because at most 15 (resp. 8) bases are packed, the `u32` (resp. `u16`)
shifts never discard bits, so plain `Nat` arithmetic is exact. -/
def packBases : Nat → List Nat → Option Nat
  | acc, [] => some acc
  | acc, b :: bs =>
    match baseBits b with
    | some v => packBases (acc * 4 + v) bs
    | none => none

/-- `encode_kmer` from `src/rustmasker/src/lib.rs` (u32 version, max 15
bases): `None` for over-long slices or any invalid base. -/
def encodeKmer (bases : List Nat) : Option Nat :=
  if 15 < bases.length then none else packBases 0 bases

/-- The summand `p * p.log2()` with `p = j / total`, as used both by
`shannon_entropy` (per map entry) and by the precomputed
`entropy_table[j]` of `ArrayEntropyTracker::new` (which stores `0.0` at
`j = 0`; `shannon_entropy` never visits zero counts, which also
contribute `0` here). -/
noncomputable def plogp (total j : Nat) : ℝ :=
  if j = 0 then 0 else ((j : ℝ) / total) * Real.logb 2 ((j : ℝ) / total)

/-- `shannon_entropy(kmer_counts, total_kmers)`.  The map is its lookup
function; `space` bounds the key space (every key ever inserted is a
code `< 4^k`), and absent keys contribute `plogp total 0 = 0`, so the
sum below equals the source's sum over the map's entries. -/
noncomputable def shannonEntropy (space : Nat) (m : Nat → Nat) (total : Nat) : ℝ :=
  if total = 0 then 0
  else
    let e : ℝ := -(∑ c ∈ Finset.range space, plogp total (m c))
    let maxE : ℝ := Real.logb 2 total
    if 0 < maxE then e / maxE else e

/-- `add_kmer(kmer_counts, kmer)`: insert-or-increment on valid encodings,
no-op on invalid ones. -/
def hmAdd (m : Nat → Nat) (kmer : List Nat) : Nat → Nat :=
  match encodeKmer kmer with
  | some c => Function.update m c (m c + 1)
  | none => m

/-- `remove_kmer(kmer_counts, kmer)`: decrement-and-remove-at-zero on
present keys (`m c = 0` models an absent key), no-op otherwise. -/
def hmRemove (m : Nat → Nat) (kmer : List Nat) : Nat → Nat :=
  match encodeKmer kmer with
  | some c => if m c = 0 then m else Function.update m c (m c - 1)
  | none => m

/-- `get_kmers(sequence, k)`: count all validly-encoded k-mers of the
sequence. -/
def getKmers (seq : List Nat) (k : Nat) : Nat → Nat :=
  if seq.length < k then fun _ => 0
  else (List.range (seq.length - k + 1)).foldl (fun m i => hmAdd m (slice seq i k)) (fun _ => 0)

/-- Specification-side count function: how many positions
`j ∈ [lo, lo+n)` carry a valid k-mer with code `c`.  The incremental
`HashMap` state of `mask_sequence` is proved equal to this function on
the current window. -/
def kmerCountF (seq : List Nat) (k lo n : Nat) : Nat → Nat := fun c =>
  (List.range' lo n).countP (fun j => encodeKmer (slice seq j k) == some c)

/-- State threaded through the `for i in 0..seq_len` loop of
`mask_sequence`: the k-mer count map, the `first_full_window` flag, and
the output buffers. -/
structure HState where
  counts : Nat → Nat
  first : Bool
  ms : List Nat
  mq : List Nat

/-- One iteration of the `mask_sequence` sliding-window loop
(`src/rustmasker/src/lib.rs`, lines 126-175), verbatim: window bounds,
warm-up skip, prime-or-slide update of the count map, entropy test,
whole-window painting. -/
noncomputable def hashStep (seq : List Nat) (w : Nat) (t : ℝ) (k : Nat)
    (st : HState) (i : Nat) : HState :=
  let ws := if w ≤ i + 1 then i + 1 - w else 0
  let we := i + 1
  if we - ws < w then st
  else
    let counts :=
      if st.first then
        (List.range' ws (we - k + 1 - ws)).foldl (fun m j => hmAdd m (slice seq j k)) fun _ => 0
      else
        let m1 := if (ws - 1) + k ≤ seq.length then
            hmRemove st.counts (slice seq (ws - 1) k) else st.counts
        if we - k < seq.length ∧ (we - k) + k ≤ seq.length then
          hmAdd m1 (slice seq (we - k) k) else m1
    let total := if k ≤ w then w - k + 1 else 0
    let e := shannonEntropy (4 ^ k) counts total
    if e < t then ⟨counts, false, paint 78 ws we st.ms, paint 35 ws we st.mq⟩
    else ⟨counts, false, st.ms, st.mq⟩

/-- `mask_sequence(sequence, quality, window, entropy_threshold, k)`:
short-read fallback for `L < window`, otherwise the sliding-window loop. -/
noncomputable def maskSequence (seq qual : List Nat) (w : Nat) (t : ℝ) (k : Nat) :
    List Nat × List Nat :=
  if seq.length < w then
    let total := if k ≤ seq.length then seq.length - k + 1 else 0
    let e := shannonEntropy (4 ^ k) (getKmers seq k) total
    if e < t then (paint 78 0 seq.length seq, paint 35 0 seq.length qual)
    else (seq, qual)
  else
    let fin := (List.range seq.length).foldl (hashStep seq w t k) ⟨fun _ => 0, true, seq, qual⟩
    (fin.ms, fin.mq)

/-!  `ArrayEntropyTracker` (dense backend).  Its `counts` and
`count_counts` buffers hold `u16` values; operations are modelled in
`Option`, with `none` for the arithmetic-overflow or index
out-of-bounds program errors described in the file header. -/

/-- State of `ArrayEntropyTracker`.  The `entropy_table` and
`entropy_mult` fields of the source are pure functions of
`window_kmers` and are recomputed on the fly here (`plogp windowKmers`
and `-1 / logb 2 windowKmers` respectively). -/
structure Tracker where
  windowKmers : Nat
  kmerSpace : Nat
  counts : Nat → Nat
  cc : Nat → Nat
  esum : ℝ
  uniq : Nat

/-- The tracker state built by `ArrayEntropyTracker::new(k, window)`
after its asserts have passed: counts all zero,
`count_counts = [window_kmers as u16, 0, 0, …]`, zero entropy sum. -/
def freshTracker (k w : Nat) : Tracker :=
  { windowKmers := w - k + 1
    kmerSpace := 4 ^ k
    counts := fun _ => 0
    cc := fun j => if j = 0 then (w - k + 1) % 65536 else 0
    esum := 0
    uniq := 0 }

/-- `ArrayEntropyTracker::new(k, window)`, including its two asserts
(`k` in `1..=15`, `window > k`), which panic (`none`) when violated. -/
def newTracker (k w : Nat) : Option Tracker :=
  if 1 ≤ k ∧ k ≤ 15 ∧ k < w then some (freshTracker k w) else none

/-- `ArrayEntropyTracker::add_kmer(kmer_code)`.  Guards, in source
order: `counts[code]` index; `old_count + 1` u16 overflow;
`count_counts[old]`, `count_counts[new]` and `entropy_table[..]`
indexes (all three buffers have length `window_kmers + 2`);
`count_counts[old] -= 1` u16 underflow; `count_counts[new] += 1` u16
overflow. -/
noncomputable def Tracker.addKmer (t : Tracker) (code : Nat) : Option Tracker :=
  if code < t.kmerSpace then
    let oc := t.counts code
    if oc + 1 ≤ 65535 then
      let nc := oc + 1
      if oc < t.windowKmers + 2 ∧ nc < t.windowKmers + 2 then
        if 1 ≤ t.cc oc ∧ t.cc nc + 1 ≤ 65535 then
          some { windowKmers := t.windowKmers
                 kmerSpace := t.kmerSpace
                 counts := Function.update t.counts code nc
                 cc := Function.update (Function.update t.cc oc (t.cc oc - 1)) nc (t.cc nc + 1)
                 esum := t.esum + plogp t.windowKmers nc - plogp t.windowKmers oc
                 uniq := if oc = 0 then t.uniq + 1 else t.uniq }
        else none
      else none
    else none
  else none

/-- `ArrayEntropyTracker::remove_kmer(kmer_code)`: silent no-op when the
count is already zero; otherwise the symmetric update, with the same
guards, plus the `usize` underflow guard on `unique -= 1`. -/
noncomputable def Tracker.removeKmer (t : Tracker) (code : Nat) : Option Tracker :=
  if code < t.kmerSpace then
    let oc := t.counts code
    if oc = 0 then some t
    else
      let nc := oc - 1
      if oc < t.windowKmers + 2 ∧ nc < t.windowKmers + 2 then
        if 1 ≤ t.cc oc ∧ t.cc nc + 1 ≤ 65535 then
          if nc = 0 ∧ t.uniq = 0 then none
          else
            some { windowKmers := t.windowKmers
                   kmerSpace := t.kmerSpace
                   counts := Function.update t.counts code nc
                   cc := Function.update (Function.update t.cc oc (t.cc oc - 1)) nc (t.cc nc + 1)
                   esum := t.esum + plogp t.windowKmers nc - plogp t.windowKmers oc
                   uniq := if nc = 0 then t.uniq - 1 else t.uniq }
        else none
      else none
  else none

/-- `ArrayEntropyTracker::entropy()`: `(esum * entropy_mult).max(0.0)`
with `entropy_mult = -1.0 / log2(window_kmers)`. -/
noncomputable def Tracker.entropy (t : Tracker) : ℝ :=
  max (t.esum * (-1 / Real.logb 2 t.windowKmers)) 0

/-- `ArrayEntropyTracker::clear()`: reset to the fresh state (including
the truncating `window_kmers as u16` store into `count_counts[0]`). -/
def Tracker.clear (t : Tracker) : Tracker :=
  { windowKmers := t.windowKmers
    kmerSpace := t.kmerSpace
    counts := fun _ => 0
    cc := fun j => if j = 0 then t.windowKmers % 65536 else 0
    esum := 0
    uniq := 0 }

/-- State threaded through the `mask_sequence_array` loop. -/
structure AState where
  tr : Tracker
  first : Bool
  ms : List Nat
  mq : List Nat

/-- One iteration of the `mask_sequence_array` sliding-window loop
(`src/rustmasker/src/lib.rs`, lines 365-417): same structure as
`hashStep`, with the checked tracker in place of the map. -/
noncomputable def arrayStep (seq : List Nat) (w : Nat) (t : ℝ) (k : Nat)
    (st : AState) (i : Nat) : Option AState :=
  let ws := if w ≤ i + 1 then i + 1 - w else 0
  let we := i + 1
  if we - ws < w then some st
  else
    (if st.first then
        (List.range' ws (we - k + 1 - ws)).foldlM
          (fun (tt : Tracker) (j : Nat) =>
            match encodeKmer (slice seq j k) with
            | some c => tt.addKmer c
            | none => pure tt)
          st.tr.clear
      else
        (if (ws - 1) + k ≤ seq.length then
            match encodeKmer (slice seq (ws - 1) k) with
            | some c => st.tr.removeKmer c
            | none => pure st.tr
          else pure st.tr).bind fun t1 =>
          if we - k < seq.length ∧ (we - k) + k ≤ seq.length then
            match encodeKmer (slice seq (we - k) k) with
            | some c => t1.addKmer c
            | none => pure t1
          else pure t1).bind fun tr =>
      let e := tr.entropy
      if e < t then pure ⟨tr, false, paint 78 ws we st.ms, paint 35 ws we st.mq⟩
      else pure ⟨tr, false, st.ms, st.mq⟩

/-- `mask_sequence_array(sequence, quality, window, entropy_threshold, k)`:
the short-read path is shared verbatim with `mask_sequence` (it uses the
HashMap helpers and never builds a tracker); the long path drives the
checked tracker. -/
noncomputable def maskSequenceArray (seq qual : List Nat) (w : Nat) (t : ℝ) (k : Nat) :
    Option (List Nat × List Nat) :=
  if seq.length < w then
    let total := if k ≤ seq.length then seq.length - k + 1 else 0
    let e := shannonEntropy (4 ^ k) (getKmers seq k) total
    if e < t then some (paint 78 0 seq.length seq, paint 35 0 seq.length qual)
    else some (seq, qual)
  else do
    let tr0 ← newTracker k w
    let fin ← (List.range seq.length).foldlM (arrayStep seq w t k) ⟨tr0, true, seq, qual⟩
    pure (fin.ms, fin.mq)

/-- `mask_sequence_auto`: array backend for `k ≤ 7`, HashMap backend
otherwise (the HashMap backend is total, hence `some`). -/
noncomputable def maskSequenceAuto (seq qual : List Nat) (w : Nat) (t : ℝ) (k : Nat) :
    Option (List Nat × List Nat) :=
  if k ≤ 7 then maskSequenceArray seq qual w t k
  else some (maskSequence seq qual w t k)

/-!  SDUST scorer. -/

/-- `encode_triplet`: 6-bit code of a 3-base window, `None` on length
mismatch or invalid base. -/
def encodeTriplet (bases : List Nat) : Option Nat :=
  if bases.length ≠ 3 then none else packBases 0 bases

/-- The counting loop of `SdustScorer::score_window`: `counts` is a
64-entry `[0u16; 64]` array.  Checked semantics: `none` for the
index-out-of-bounds panic on a triplet code `≥ 64` and for the `u16`
overflow panic of `counts[t] += 1` past 65535. -/
def tripletCounts (trips : List Nat) : Option (Nat → Nat) :=
  trips.foldlM
    (fun f tr =>
      if 64 ≤ tr then none
      else if f tr + 1 ≤ 65535 then some (Function.update f tr (f tr + 1))
      else none)
    fun _ => 0

/-- `SdustScorer::score_window(triplets)`: the DUST accumulation
`score += c * (c - 1) / 2` over the 64 counts in order, with the
source's `c > 1` guard.  The `i32` product `c * (c - 1)` and the `i32`
sum are checked against the `i32` range (`none` = debug overflow
panic). -/
def scoreWindow (trips : List Nat) : Option ℤ :=
  (tripletCounts trips).bind fun counts =>
    (List.range 64).foldlM
      (fun (score : ℤ) c =>
        if 1 < (counts c : ℤ) then
          if -2147483648 ≤ (counts c : ℤ) * ((counts c : ℤ) - 1)
              ∧ (counts c : ℤ) * ((counts c : ℤ) - 1) ≤ 2147483647 then
            if -2147483648 ≤ score + (counts c : ℤ) * ((counts c : ℤ) - 1) / 2
                ∧ score + (counts c : ℤ) * ((counts c : ℤ) - 1) / 2 ≤ 2147483647 then
              some (score + (counts c : ℤ) * ((counts c : ℤ) - 1) / 2)
            else none
          else none
        else some score)
      0

/-- `SdustScorer::should_mask(score, window_length)`: `false` for empty
windows, else `score * 10 > threshold * (window_length as i32)`.  Both
`i32` products are checked (`none` = debug overflow panic); the
`window_length as i32` cast is the lossy Rust `as` cast (truncate to 32
bits, reinterpret signed), which never panics. -/
def shouldMask (threshold : ℤ) (score : ℤ) (winLen : Nat) : Option Bool :=
  if winLen = 0 then some false
  else
    if -2147483648 ≤ score * 10 ∧ score * 10 ≤ 2147483647 then
      if -2147483648 ≤ threshold * (if winLen % 4294967296 < 2147483648 then
            ((winLen % 4294967296 : Nat) : ℤ) else ((winLen % 4294967296 : Nat) : ℤ) - 4294967296)
          ∧ threshold * (if winLen % 4294967296 < 2147483648 then
            ((winLen % 4294967296 : Nat) : ℤ) else ((winLen % 4294967296 : Nat) : ℤ) - 4294967296)
            ≤ 2147483647 then
        some (decide (threshold * (if winLen % 4294967296 < 2147483648 then
            ((winLen % 4294967296 : Nat) : ℤ) else ((winLen % 4294967296 : Nat) : ℤ) - 4294967296)
          < score * 10))
      else none
    else none

/-- Specification-side DUST score of a window, exactly as the claim
states it: `Σ_c c·(c−1)/2` over the 64 triplet counts (`c` the exact
occurrence count of each code). -/
def dustScore (trips : List Nat) : ℤ :=
  ∑ c ∈ Finset.range 64, (trips.count c : ℤ) * ((trips.count c : ℤ) - 1) / 2

/-!  Basic lemmas: painting, slicing, encoding, counting. -/

lemma paintFrom_length (v a b : Nat) (l : List Nat) : ∀ off,
    (paintFrom v a b off l).length = l.length := by
  induction l with
  | nil => intro off; rfl
  | cons x xs ih => intro off; simp [paintFrom, ih]

@[simp] lemma paint_length (v a b : Nat) (l : List Nat) :
    (paint v a b l).length = l.length := paintFrom_length v a b l 0

lemma paintFrom_getD (v a b : Nat) (l : List Nat) : ∀ off j,
    (paintFrom v a b off l).getD j 0 =
      if j < l.length ∧ a ≤ off + j ∧ off + j < b then v else l.getD j 0 := by
  induction l with
  | nil => intro off j; simp [paintFrom]
  | cons x xs ih =>
    intro off j
    cases j with
    | zero =>
      simp only [paintFrom, List.getD_cons_zero]
      exact if_congr (by simp only [List.length_cons, Nat.add_zero]; omega) rfl rfl
    | succ j =>
      simp only [paintFrom, List.getD_cons_succ, ih (off + 1) j]
      exact if_congr (by simp only [List.length_cons]; omega) rfl rfl

lemma paint_getD (v a b : Nat) (l : List Nat) (j : Nat) :
    (paint v a b l).getD j 0 =
      if j < l.length ∧ a ≤ j ∧ j < b then v else l.getD j 0 := by
  simpa using paintFrom_getD v a b l 0 j

lemma paintFrom_eq_replicate (v b : Nat) (l : List Nat) : ∀ off,
    off + l.length ≤ b → paintFrom v 0 b off l = List.replicate l.length v := by
  induction l with
  | nil => intro off _; rfl
  | cons x xs ih =>
    intro off h
    simp only [List.length_cons] at h
    simp only [paintFrom, List.length_cons, List.replicate_succ]
    rw [if_pos (by omega), ih (off + 1) (by omega)]

lemma paint_eq_replicate (v : Nat) (l : List Nat) (b : Nat) (h : l.length ≤ b) :
    paint v 0 b l = List.replicate l.length v :=
  paintFrom_eq_replicate v b l 0 (by omega)

lemma slice_length_le (l : List Nat) (j k : Nat) : (slice l j k).length ≤ k := by
  simp [slice]

lemma slice_length (l : List Nat) (j k : Nat) (h : j + k ≤ l.length) :
    (slice l j k).length = k := by
  simp [slice]; omega

lemma slice_one (l : List Nat) : ∀ j, j < l.length → slice l j 1 = [l.getD j 0] := by
  induction l with
  | nil => intro j h; simp at h
  | cons x xs ih =>
    intro j h
    cases j with
    | zero => simp [slice]
    | succ j =>
      have := ih j (by simpa using Nat.lt_of_succ_lt_succ h)
      simpa [slice, List.getD_cons_succ] using this

lemma baseBits_le (b v : Nat) (h : baseBits b = some v) : v ≤ 3 := by
  unfold baseBits at h
  split_ifs at h <;> simp_all <;> omega

lemma packBases_lt : ∀ (bs : List Nat) (acc n : Nat), acc < 4 ^ n →
    ∀ c, packBases acc bs = some c → c < 4 ^ (n + bs.length) := by
  intro bs
  induction bs with
  | nil =>
    intro acc n hacc c hc
    simp only [packBases, Option.some_inj] at hc
    simpa [← hc] using hacc
  | cons b bs ih =>
    intro acc n hacc c hc
    simp only [packBases] at hc
    cases hb : baseBits b with
    | none => rw [hb] at hc; exact absurd hc (by simp)
    | some v =>
      rw [hb] at hc
      have hv := baseBits_le b v hb
      have hlt : acc * 4 + v < 4 ^ (n + 1) := by
        have : acc + 1 ≤ 4 ^ n := hacc
        calc acc * 4 + v ≤ (4 ^ n - 1) * 4 + 3 := by
              have : acc ≤ 4 ^ n - 1 := by omega
              omega
          _ < 4 ^ (n + 1) := by
              have h4 : 1 ≤ 4 ^ n := Nat.one_le_pow n 4 (by norm_num)
              have : 4 ^ (n + 1) = 4 ^ n * 4 := by ring
              omega
      have := ih (acc * 4 + v) (n + 1) hlt c hc
      simpa [Nat.add_assoc, Nat.add_comm 1 bs.length] using this

lemma encodeKmer_lt (bs : List Nat) (c : Nat) (h : encodeKmer bs = some c) :
    c < 4 ^ bs.length := by
  unfold encodeKmer at h
  split_ifs at h
  simpa using packBases_lt bs 0 0 (by norm_num) c h

lemma encodeKmer_slice_lt (seq : List Nat) (j k c : Nat)
    (h : encodeKmer (slice seq j k) = some c) : c < 4 ^ k :=
  lt_of_lt_of_le (encodeKmer_lt _ c h)
    (Nat.pow_le_pow_right (by norm_num) (slice_length_le seq j k))

lemma hmAdd_apply (m : Nat → Nat) (kmer : List Nat) (c : Nat) :
    hmAdd m kmer c = m c + (if encodeKmer kmer = some c then 1 else 0) := by
  cases h : encodeKmer kmer with
  | none => simp [hmAdd, h]
  | some c0 =>
    simp only [hmAdd, h, Function.update_apply, Option.some_inj]
    by_cases hc : c = c0 <;> simp [hc]
    exact fun h2 => absurd h2.symm hc

lemma kmerCountF_zero (seq : List Nat) (k lo : Nat) :
    kmerCountF seq k lo 0 = fun _ => 0 := by
  funext c; simp [kmerCountF]

lemma kmerCountF_succ (seq : List Nat) (k lo n : Nat) :
    kmerCountF seq k lo (n + 1) = hmAdd (kmerCountF seq k lo n) (slice seq (lo + n) k) := by
  funext c
  rw [hmAdd_apply]
  have hsplit : List.range' lo (n + 1) = List.range' lo n ++ [lo + n] := by
    have h1 := (List.range'_append_1 lo n 1).symm
    rw [List.range'_one] at h1
    rw [Nat.add_comm n 1]
    exact h1
  simp only [kmerCountF, hsplit, List.countP_append]
  congr 1
  simp [List.countP_cons]

lemma kmerCountF_cons (seq : List Nat) (k lo n c : Nat) :
    kmerCountF seq k lo (n + 1) c =
      (if encodeKmer (slice seq lo k) = some c then 1 else 0) +
        kmerCountF seq k (lo + 1) n c := by
  simp only [kmerCountF, List.range'_succ, List.countP_cons]
  simp [Nat.add_comm]

lemma hmRemove_shift (seq : List Nat) (k lo n : Nat) :
    hmRemove (kmerCountF seq k lo (n + 1)) (slice seq lo k) = kmerCountF seq k (lo + 1) n := by
  funext c
  cases h : encodeKmer (slice seq lo k) with
  | none =>
    simp only [hmRemove, h]
    rw [kmerCountF_cons]
    simp [h]
  | some c0 =>
    have hc0 : kmerCountF seq k lo (n + 1) c0 = 1 + kmerCountF seq k (lo + 1) n c0 := by
      rw [kmerCountF_cons]; simp [h]
    simp only [hmRemove, h]
    rw [if_neg (by omega)]
    rw [Function.update_apply]
    by_cases hc : c = c0
    · subst hc; rw [if_pos rfl, hc0]; omega
    · rw [if_neg hc, kmerCountF_cons]
      simp only [h, Option.some_inj]
      rw [if_neg (fun h2 => hc h2.symm)]
      omega

lemma foldl_hmAdd_range' (seq : List Nat) (k : Nat) : ∀ (n lo : Nat) (z : Nat → Nat),
    (List.range' lo n).foldl (fun m j => hmAdd m (slice seq j k)) z
      = fun c => z c + kmerCountF seq k lo n c := by
  intro n
  induction n with
  | zero => intro lo z; funext c; simp [kmerCountF]
  | succ n ih =>
    intro lo z
    rw [List.range'_succ]
    simp only [List.foldl_cons]
    rw [ih (lo + 1) (hmAdd z (slice seq lo k))]
    funext c
    rw [hmAdd_apply, kmerCountF_cons]
    omega

lemma getKmers_eq (seq : List Nat) (k : Nat) (h : k ≤ seq.length) :
    getKmers seq k = kmerCountF seq k 0 (seq.length - k + 1) := by
  unfold getKmers
  rw [if_neg (by omega), List.range_eq_range', foldl_hmAdd_range']
  funext c; simp

lemma kmerCountF_le (seq : List Nat) (k lo n c : Nat) : kmerCountF seq k lo n c ≤ n := by
  have := List.countP_le_length
    (p := fun j => encodeKmer (slice seq j k) == some c) (l := List.range' lo n)
  simpa [kmerCountF] using this

lemma kmerCountF_outside (seq : List Nat) (k lo n c : Nat) (hc : 4 ^ k ≤ c) :
    kmerCountF seq k lo n c = 0 := by
  simp only [kmerCountF]
  rw [List.countP_eq_zero]
  intro j _
  simp only [beq_iff_eq]
  intro h
  exact absurd (encodeKmer_slice_lt seq j k c h) (by omega)

lemma sum_kmerCountF_le (seq : List Nat) (k lo n : Nat) :
    ∑ c ∈ Finset.range (4 ^ k), kmerCountF seq k lo n c ≤ n := by
  induction n with
  | zero => simp [kmerCountF]
  | succ n ih =>
    have step : ∀ c, kmerCountF seq k lo (n + 1) c =
        kmerCountF seq k lo n c + (if encodeKmer (slice seq (lo + n) k) = some c then 1 else 0) := by
      intro c; rw [kmerCountF_succ, hmAdd_apply]
    simp only [step]
    rw [Finset.sum_add_distrib]
    have hind : (∑ c ∈ Finset.range (4 ^ k),
        (if encodeKmer (slice seq (lo + n) k) = some c then 1 else 0)) ≤ 1 := by
      cases h : encodeKmer (slice seq (lo + n) k) with
      | none => simp
      | some c0 =>
        have hc0 := encodeKmer_slice_lt seq (lo + n) k c0 h
        have : (∑ c ∈ Finset.range (4 ^ k), if c0 = c then 1 else 0) = 1 := by
          rw [Finset.sum_ite_eq]
          simp [Finset.mem_range, hc0]
        simp only [Option.some_inj]
        omega
    omega

/-!  Entropy arithmetic over `ℝ`. -/

lemma plogp_zero (N : Nat) : plogp N 0 = 0 := by simp [plogp]

lemma plogp_self (N : Nat) (hN : 1 ≤ N) : plogp N N = 0 := by
  have hNne : N ≠ 0 := by omega
  have h1 : ((N : ℝ) / N) = 1 := div_self (by exact_mod_cast hNne)
  simp [plogp, hNne, h1]

lemma plogp_nonpos (N j : Nat) (h : j ≤ N) : plogp N j ≤ 0 := by
  rcases Nat.eq_zero_or_pos j with hj | hj
  · simp [plogp, hj]
  · have hN : 0 < N := lt_of_lt_of_le hj h
    have hp0 : (0 : ℝ) ≤ (j : ℝ) / N := by positivity
    have hp1 : (j : ℝ) / N ≤ 1 := by
      rw [div_le_one (by positivity)]
      exact_mod_cast h
    have := Real.logb_nonpos (b := 2) (by norm_num) hp0 hp1
    have hne : j ≠ 0 := by omega
    simp only [plogp, if_neg hne]
    exact mul_nonpos_of_nonneg_of_nonpos hp0 this

lemma plogp_eq_zero_iff (N j : Nat) (hN : 2 ≤ N) (h : j ≤ N) :
    plogp N j = 0 ↔ j = 0 ∨ j = N := by
  constructor
  · intro h0
    by_cases hj : j = 0
    · exact Or.inl hj
    · right
      simp only [plogp, if_neg hj] at h0
      rcases mul_eq_zero.mp h0 with hp | hl
      · exfalso
        have : (j : ℝ) ≠ 0 := Nat.cast_ne_zero.mpr hj
        have : ((j : ℝ) / N) ≠ 0 := div_ne_zero this (by positivity)
        exact this hp
      · rcases Real.logb_eq_zero.mp hl with h2 | h2 | h2 | h2 | h2 | h2
        · norm_num at h2
        · norm_num at h2
        · norm_num at h2
        · exfalso
          have : (j : ℝ) ≠ 0 := Nat.cast_ne_zero.mpr hj
          exact (div_ne_zero this (by positivity)) h2
        · have hN0 : (N : ℝ) ≠ 0 := Nat.cast_ne_zero.mpr (by omega)
          have hjN : (j : ℝ) = (N : ℝ) := (div_eq_one_iff_eq hN0).mp h2
          exact_mod_cast hjN
        · exfalso
          have : (0:ℝ) ≤ (j : ℝ) / N := by positivity
          rw [h2] at this; norm_num at this
  · rintro (rfl | h2)
    · exact plogp_zero N
    · rw [h2]; exact plogp_self N (by omega)

lemma shannon_nonneg (space : Nat) (m : Nat → Nat) (total : Nat)
    (h : ∀ c, c < space → m c ≤ total) : 0 ≤ shannonEntropy space m total := by
  have he : 0 ≤ -(∑ c ∈ Finset.range space, plogp total (m c)) := by
    rw [neg_nonneg]
    refine Finset.sum_nonpos fun c hc => ?_
    exact plogp_nonpos total (m c) (h c (Finset.mem_range.mp hc))
  simp only [shannonEntropy]
  split_ifs with h0 h1
  · exact le_refl 0
  · exact div_nonneg he (le_of_lt h1)
  · exact he

/-- Gibbs' inequality instance: for positive weights `m c / N` summing to
one over `s`, the Shannon entropy (natural log) is at most `log s.card`. -/
lemma gibbs_log (s : Finset Nat) (N : Nat) (hN : 0 < N) (m : Nat → Nat)
    (hmem : ∀ c ∈ s, 1 ≤ m c) (hS : ∑ c ∈ s, m c = N) :
    -(∑ c ∈ s, ((m c : ℝ) / N) * Real.log ((m c : ℝ) / N)) ≤ Real.log s.card := by
  have hcard : 0 < s.card := by
    rcases Finset.eq_empty_or_nonempty s with rfl | hne
    · simp at hS; omega
    · exact Finset.card_pos.mpr hne
  have hSp : ∑ c ∈ s, ((m c : ℝ) / N) = 1 := by
    rw [← Finset.sum_div]
    rw [div_eq_one_iff_eq (by positivity)]
    exact_mod_cast hS
  -- termwise Gibbs bound
  have key : ∀ c ∈ s,
      ((m c : ℝ) / N) * (-(Real.log s.card) - Real.log ((m c : ℝ) / N))
        ≤ 1 / s.card - (m c : ℝ) / N := by
    intro c hc
    have hmc : (0 : ℝ) < (m c : ℝ) := by exact_mod_cast hmem c hc
    have hp : (0 : ℝ) < (m c : ℝ) / N := div_pos hmc (by positivity)
    have hx : (0 : ℝ) < 1 / ((s.card : ℝ) * ((m c : ℝ) / N)) := by positivity
    have hlog := Real.log_le_sub_one_of_pos hx
    have hrw : Real.log (1 / ((s.card : ℝ) * ((m c : ℝ) / N)))
        = -(Real.log s.card) - Real.log ((m c : ℝ) / N) := by
      rw [one_div, Real.log_inv, Real.log_mul (by positivity) (ne_of_gt hp)]
      ring
    have := mul_le_mul_of_nonneg_left hlog (le_of_lt hp)
    rw [hrw] at this
    refine le_trans this ?_
    rw [mul_sub, mul_one]
    have h5 : ((m c : ℝ) / N) * (1 / ((s.card : ℝ) * ((m c : ℝ) / N))) = 1 / s.card := by
      field_simp
      ring
    rw [h5]
  have hsum := Finset.sum_le_sum key
  have hrhs : ∑ c ∈ s, (1 / (s.card : ℝ) - (m c : ℝ) / N) = 0 := by
    rw [Finset.sum_sub_distrib, hSp, Finset.sum_const]
    field_simp
  rw [hrhs] at hsum
  have hlhs : ∑ c ∈ s, ((m c : ℝ) / N) * (-(Real.log s.card) - Real.log ((m c : ℝ) / N))
      = -(Real.log s.card) - ∑ c ∈ s, ((m c : ℝ) / N) * Real.log ((m c : ℝ) / N) := by
    have : ∀ c ∈ s, ((m c : ℝ) / N) * (-(Real.log s.card) - Real.log ((m c : ℝ) / N))
        = ((m c : ℝ) / N) * (-(Real.log s.card))
          - ((m c : ℝ) / N) * Real.log ((m c : ℝ) / N) := by
      intro c _; ring
    rw [Finset.sum_congr rfl this, Finset.sum_sub_distrib, ← Finset.sum_mul, hSp]
    ring
  rw [hlhs] at hsum
  linarith

/-- The normalized-entropy upper bound: over any key space, if the counts
sum to `N ≥ 2` then `-Σ plogp ≤ log2 N`. -/
lemma neg_sum_plogp_le_logb (S N : Nat) (hN : 2 ≤ N) (m : Nat → Nat)
    (hsum : ∑ c ∈ Finset.range S, m c = N) :
    -(∑ c ∈ Finset.range S, plogp N (m c)) ≤ Real.logb 2 N := by
  classical
  set s := (Finset.range S).filter (fun c => 1 ≤ m c) with hs
  have hmem : ∀ c ∈ s, 1 ≤ m c := fun c hc => (Finset.mem_filter.mp hc).2
  have hSs : ∑ c ∈ s, m c = N := by
    rw [← hsum, hs]
    exact Finset.sum_filter_of_ne (fun x _ hx => by omega)
  have hplogp : ∑ c ∈ Finset.range S, plogp N (m c) = ∑ c ∈ s, plogp N (m c) := by
    rw [hs]
    refine (Finset.sum_filter_of_ne fun x _ hx => ?_).symm
    by_contra hmx
    exact hx (by simp [plogp, Nat.lt_one_iff.mp (Nat.not_le.mp hmx)])
  have hcard_le : s.card ≤ N := by
    calc s.card = ∑ c ∈ s, 1 := by simp
      _ ≤ ∑ c ∈ s, m c := Finset.sum_le_sum hmem
      _ = N := hSs
  have hcard_pos : 0 < s.card := by
    rcases Finset.eq_empty_or_nonempty s with he | hne
    · rw [he] at hSs; simp at hSs; omega
    · exact Finset.card_pos.mpr hne
  have hgibbs := gibbs_log s N (by omega) m hmem hSs
  have hlog2 : (0 : ℝ) < Real.log 2 := Real.log_pos (by norm_num)
  rw [hplogp]
  have hterm : ∀ c ∈ s, plogp N (m c)
      = (((m c : ℝ) / N) * Real.log ((m c : ℝ) / N)) / Real.log 2 := by
    intro c hc
    have h1 : 1 ≤ m c := hmem c hc
    simp only [plogp, if_neg (by omega : ¬m c = 0), Real.logb]
    ring
  rw [Finset.sum_congr rfl hterm, ← Finset.sum_div, Real.logb]
  rw [neg_div', div_le_div_iff_of_pos_right hlog2]
  have hcp : (0 : ℝ) < (s.card : ℝ) := by exact_mod_cast hcard_pos
  have hcl : (s.card : ℝ) ≤ (N : ℝ) := by exact_mod_cast hcard_le
  exact le_trans hgibbs (Real.log_le_log hcp hcl)

/-!  Tracker invariants. -/

lemma filter_comp_update_card (S : Finset Nat) (f : Nat → Nat) (c0 v : Nat) (P : Nat → Prop)
    [DecidablePred P] (hc0 : c0 ∈ S) :
    (S.filter (fun c => P (Function.update f c0 v c))).card
      = (S.filter (fun c => P (f c))).card
        + (if P v ∧ ¬P (f c0) then 1 else 0) - (if P (f c0) ∧ ¬P v then 1 else 0) := by
  classical
  by_cases hPv : P v <;> by_cases hPf : P (f c0)
  · have hset : S.filter (fun c => P (Function.update f c0 v c))
        = S.filter (fun c => P (f c)) := by
      apply Finset.ext; intro x
      simp only [Finset.mem_filter, Function.update_apply]
      by_cases hx : x = c0
      · subst hx; simp [hPv, hPf]
      · simp [hx]
    rw [hset]; simp [hPv, hPf]
  · have hset : S.filter (fun c => P (Function.update f c0 v c))
        = insert c0 (S.filter (fun c => P (f c))) := by
      apply Finset.ext; intro x
      simp only [Finset.mem_filter, Finset.mem_insert, Function.update_apply]
      by_cases hx : x = c0
      · subst hx; simp [hPv, hc0]
      · simp [hx]
    rw [hset, Finset.card_insert_of_not_mem (by simp [Finset.mem_filter, hPf])]
    simp [hPv, hPf]
  · have hset : S.filter (fun c => P (Function.update f c0 v c))
        = (S.filter (fun c => P (f c))).erase c0 := by
      apply Finset.ext; intro x
      simp only [Finset.mem_filter, Finset.mem_erase, Function.update_apply]
      by_cases hx : x = c0
      · subst hx; simp [hPv]
      · simp [hx]
    rw [hset, Finset.card_erase_of_mem (by simp [Finset.mem_filter, hPf, hc0])]
    simp [hPv, hPf]
  · have hset : S.filter (fun c => P (Function.update f c0 v c))
        = S.filter (fun c => P (f c)) := by
      apply Finset.ext; intro x
      simp only [Finset.mem_filter, Function.update_apply]
      by_cases hx : x = c0
      · subst hx; simp [hPv, hPf]
      · simp [hx]
    rw [hset]; simp [hPv, hPf]

lemma sum_comp_update (S : Finset Nat) (f : Nat → Nat) (c0 v : Nat) (g : Nat → ℝ)
    (hc0 : c0 ∈ S) :
    ∑ c ∈ S, g (Function.update f c0 v c) = (∑ c ∈ S, g (f c)) + g v - g (f c0) := by
  classical
  rw [Finset.sum_eq_sum_diff_singleton_add hc0 (fun c => g (Function.update f c0 v c)),
    Finset.sum_eq_sum_diff_singleton_add hc0 (fun c => g (f c))]
  have hcongr : ∑ c ∈ S \ {c0}, g (Function.update f c0 v c)
      = ∑ c ∈ S \ {c0}, g (f c) := by
    refine Finset.sum_congr rfl fun x hx => ?_
    have hx0 : x ≠ c0 := by
      have := Finset.mem_sdiff.mp hx
      simpa using this.2
    rw [Function.update_apply, if_neg hx0]
  rw [hcongr, Function.update_apply, if_pos rfl]
  ring

lemma sum_update_nat (S : Finset Nat) (f : Nat → Nat) (c0 v : Nat) (hc0 : c0 ∈ S) :
    ∑ c ∈ S, Function.update f c0 v c = (∑ c ∈ S, f c) + v - f c0 := by
  classical
  rw [Finset.sum_eq_sum_diff_singleton_add hc0 (fun c => Function.update f c0 v c),
    Finset.sum_eq_sum_diff_singleton_add hc0 f]
  have hcongr : ∑ c ∈ S \ {c0}, Function.update f c0 v c = ∑ c ∈ S \ {c0}, f c := by
    refine Finset.sum_congr rfl fun x hx => ?_
    have hx0 : x ≠ c0 := by
      have := Finset.mem_sdiff.mp hx
      simpa using this.2
    rw [Function.update_apply, if_neg hx0]
  rw [hcongr, Function.update_apply, if_pos rfl]
  have hle : f c0 ≤ ∑ c ∈ S \ {c0}, f c + f c0 := by omega
  omega

/-- `Σ counts` as held by a counts buffer over the code space. -/
def occ (space : Nat) (m : Nat → Nat) : Nat := ∑ c ∈ Finset.range space, m c

/-- Invariant linking the tracker's cached `esum` to its `counts` buffer
(spec §3: `esum = Σ_j count_histogram[j] · plogp(j)`, stated here
directly as a sum over codes). -/
structure TrackOk (N k : Nat) (t : Tracker) : Prop where
  hw : t.windowKmers = N
  hsp : t.kmerSpace = 4 ^ k
  hout : ∀ c, 4 ^ k ≤ c → t.counts c = 0
  hesum : t.esum = ∑ c ∈ Finset.range (4 ^ k), plogp N (t.counts c)

/-- Invariant of `count_counts` and `unique`: the amended histogram law,
exact for `j ≥ 1`; at `j = 0` the histogram holds `window_kmers − unique`
(not the number of zero-count codes, which is `4^k − unique`). -/
structure HistOk (N k : Nat) (t : Tracker) : Prop where
  hcc : ∀ j, 1 ≤ j → t.cc j = ((Finset.range (4 ^ k)).filter (fun c => t.counts c = j)).card
  huniq : t.uniq = ((Finset.range (4 ^ k)).filter (fun c => 1 ≤ t.counts c)).card
  hun : t.uniq ≤ N
  hcc0 : t.cc 0 = N - t.uniq

lemma uniq_card_le_occ (k : Nat) (m : Nat → Nat) :
    ((Finset.range (4 ^ k)).filter (fun c => 1 ≤ m c)).card ≤ occ (4 ^ k) m := by
  classical
  calc ((Finset.range (4 ^ k)).filter (fun c => 1 ≤ m c)).card
      = ∑ c ∈ (Finset.range (4 ^ k)).filter (fun c => 1 ≤ m c), 1 := by simp
    _ ≤ ∑ c ∈ (Finset.range (4 ^ k)).filter (fun c => 1 ≤ m c), m c :=
        Finset.sum_le_sum fun c hc => (Finset.mem_filter.mp hc).2
    _ ≤ ∑ c ∈ Finset.range (4 ^ k), m c :=
        Finset.sum_le_sum_of_subset (Finset.filter_subset _ _)
    _ = occ (4 ^ k) m := rfl

lemma counts_le_occ (space : Nat) (m : Nat → Nat) (c : Nat) (hc : c < space) :
    m c ≤ occ space m :=
  Finset.single_le_sum (f := m) (fun i _ => Nat.zero_le (m i))
    (Finset.mem_range.mpr hc)

lemma trackOk_fresh (N k w : Nat) (hN : N = w - k + 1) : TrackOk N k (freshTracker k w) := by
  refine ⟨by simp [freshTracker, hN], by simp [freshTracker], fun c _ => rfl, ?_⟩
  simp [freshTracker, plogp_zero]

lemma histOk_fresh (N k w : Nat) (hN : N = w - k + 1) (hNle : N ≤ 65535) :
    HistOk N k (freshTracker k w) := by
  classical
  refine ⟨fun j hj => ?_, by simp [freshTracker], by simp [freshTracker], ?_⟩
  · simp only [freshTracker]
    rw [if_neg (by omega)]
    have : ((Finset.range (4 ^ k)).filter (fun _ => (0 : Nat) = j)) = ∅ := by
      apply Finset.filter_false_of_mem
      intro x _
      omega
    rw [this]; simp
  · simp only [freshTracker, ← hN, if_true, eq_self_iff_true]
    omega

lemma trackOk_clear (N k : Nat) (t : Tracker) (hw : t.windowKmers = N)
    (hsp : t.kmerSpace = 4 ^ k) : TrackOk N k t.clear := by
  refine ⟨by simp [Tracker.clear, hw], by simp [Tracker.clear, hsp], fun c _ => rfl, ?_⟩
  simp [Tracker.clear, plogp_zero]

lemma histOk_clear (N k : Nat) (t : Tracker) (hw : t.windowKmers = N)
    (hNle : N ≤ 65535) : HistOk N k t.clear := by
  classical
  refine ⟨fun j hj => ?_, by simp [Tracker.clear], by simp [Tracker.clear], ?_⟩
  · simp only [Tracker.clear]
    rw [if_neg (by omega)]
    have : ((Finset.range (4 ^ k)).filter (fun _ => (0 : Nat) = j)) = ∅ := by
      apply Finset.filter_false_of_mem
      intro x _
      omega
    rw [this]; simp
  · simp only [Tracker.clear, hw, if_true, eq_self_iff_true]
    omega

/-- Successful `add_kmer` step: under the invariants, with a window that
is not yet full (`occ < N`) and an in-range code, the checked operation
succeeds and preserves the invariants. -/
lemma addKmer_spec (N k : Nat) (t : Tracker) (c0 : Nat)
    (hT : TrackOk N k t) (hH : HistOk N k t)
    (hc0 : c0 < 4 ^ k) (hocc : occ (4 ^ k) t.counts < N) (hN : N ≤ 65535) :
    ∃ t2, t.addKmer c0 = some t2
      ∧ t2.counts = Function.update t.counts c0 (t.counts c0 + 1)
      ∧ TrackOk N k t2 ∧ HistOk N k t2
      ∧ occ (4 ^ k) t2.counts = occ (4 ^ k) t.counts + 1 := by
  classical
  obtain ⟨hw, hsp, hout, hesum⟩ := hT
  obtain ⟨hcc, huniq, hun, hcc0⟩ := hH
  have hmem : c0 ∈ Finset.range (4 ^ k) := Finset.mem_range.mpr hc0
  have hocle : t.counts c0 ≤ occ (4 ^ k) t.counts := counts_le_occ _ _ c0 hc0
  have huo : t.uniq ≤ occ (4 ^ k) t.counts := by
    rw [huniq]; exact uniq_card_le_occ k t.counts
  have g1 : c0 < t.kmerSpace := by rw [hsp]; exact hc0
  have g2 : t.counts c0 + 1 ≤ 65535 := by omega
  have g3 : t.counts c0 < t.windowKmers + 2 ∧ t.counts c0 + 1 < t.windowKmers + 2 := by
    rw [hw]; omega
  have gcc1 : 1 ≤ t.cc (t.counts c0) := by
    rcases Nat.eq_zero_or_pos (t.counts c0) with h0 | h1
    · rw [h0, hcc0]; omega
    · rw [hcc (t.counts c0) h1]
      refine Finset.card_pos.mpr ⟨c0, ?_⟩
      simp [Finset.mem_filter, Finset.mem_range, hc0]
  have gcc2 : t.cc (t.counts c0 + 1) + 1 ≤ 65535 := by
    have h1 := hcc (t.counts c0 + 1) (by omega)
    have hsub : (Finset.range (4 ^ k)).filter (fun c => t.counts c = t.counts c0 + 1)
        ⊆ (Finset.range (4 ^ k)).filter (fun c => 1 ≤ t.counts c) := by
      intro x hx
      simp only [Finset.mem_filter] at hx ⊢
      exact ⟨hx.1, by omega⟩
    have h2 := Finset.card_le_card hsub
    rw [← huniq] at h2
    omega
  have g4 : 1 ≤ t.cc (t.counts c0) ∧ t.cc (t.counts c0 + 1) + 1 ≤ 65535 := ⟨gcc1, gcc2⟩
  have hstep : t.addKmer c0 = some
      { windowKmers := t.windowKmers
        kmerSpace := t.kmerSpace
        counts := Function.update t.counts c0 (t.counts c0 + 1)
        cc := Function.update (Function.update t.cc (t.counts c0) (t.cc (t.counts c0) - 1))
                (t.counts c0 + 1) (t.cc (t.counts c0 + 1) + 1)
        esum := t.esum + plogp t.windowKmers (t.counts c0 + 1)
                  - plogp t.windowKmers (t.counts c0)
        uniq := if t.counts c0 = 0 then t.uniq + 1 else t.uniq } := by
    simp only [Tracker.addKmer]
    rw [if_pos g1, if_pos g2, if_pos g3, if_pos g4]
  refine ⟨_, hstep, rfl, ⟨hw, hsp, ?_, ?_⟩, ⟨?_, ?_, ?_, ?_⟩, ?_⟩
  · intro c hcge
    show Function.update t.counts c0 (t.counts c0 + 1) c = 0
    have hne : c ≠ c0 := by omega
    rw [Function.update_apply, if_neg hne]
    exact hout c hcge
  · show t.esum + plogp t.windowKmers (t.counts c0 + 1) - plogp t.windowKmers (t.counts c0)
      = ∑ c ∈ Finset.range (4 ^ k), plogp N (Function.update t.counts c0 (t.counts c0 + 1) c)
    rw [sum_comp_update _ _ _ _ (plogp N) hmem, ← hesum, hw]
  · intro j hj
    show Function.update (Function.update t.cc (t.counts c0) (t.cc (t.counts c0) - 1))
          (t.counts c0 + 1) (t.cc (t.counts c0 + 1) + 1) j
        = ((Finset.range (4 ^ k)).filter
            (fun c => Function.update t.counts c0 (t.counts c0 + 1) c = j)).card
    rw [filter_comp_update_card _ t.counts c0 (t.counts c0 + 1) (fun x => x = j) hmem]
    rw [Function.update_apply, Function.update_apply]
    by_cases hj1 : j = t.counts c0 + 1
    · rw [if_pos hj1]
      rw [hcc (t.counts c0 + 1) (by omega), ← hj1]
      rw [if_pos (by omega), if_neg (by omega)]
      omega
    · rw [if_neg hj1]
      by_cases hj2 : j = t.counts c0
      · rw [if_pos hj2]
        have hj2' : 1 ≤ t.counts c0 := by omega
        rw [hcc (t.counts c0) hj2', ← hj2] at gcc1 ⊢
        rw [if_neg (by omega), if_pos (by omega)]
        omega
      · rw [if_neg hj2, hcc j hj]
        rw [if_neg (by omega), if_neg (by omega)]
        omega
  · show (if t.counts c0 = 0 then t.uniq + 1 else t.uniq)
      = ((Finset.range (4 ^ k)).filter
          (fun c => 1 ≤ Function.update t.counts c0 (t.counts c0 + 1) c)).card
    rw [filter_comp_update_card _ t.counts c0 (t.counts c0 + 1) (fun x => 1 ≤ x) hmem]
    by_cases h0 : t.counts c0 = 0
    · rw [if_pos h0, huniq, h0]
      rw [if_pos (by omega), if_neg (by omega)]
      omega
    · rw [if_neg h0, huniq]
      rw [if_neg (by omega), if_neg (by omega)]
      omega
  · show (if t.counts c0 = 0 then t.uniq + 1 else t.uniq) ≤ N
    by_cases h0 : t.counts c0 = 0
    · rw [if_pos h0]; omega
    · rw [if_neg h0]; omega
  · show Function.update (Function.update t.cc (t.counts c0) (t.cc (t.counts c0) - 1))
          (t.counts c0 + 1) (t.cc (t.counts c0 + 1) + 1) 0
        = N - (if t.counts c0 = 0 then t.uniq + 1 else t.uniq)
    rw [Function.update_apply, if_neg (by omega), Function.update_apply]
    by_cases h0 : t.counts c0 = 0
    · rw [if_pos (by omega), h0, hcc0, if_pos rfl]
      omega
    · rw [if_neg (by omega), hcc0, if_neg h0]
  · show occ (4 ^ k) (Function.update t.counts c0 (t.counts c0 + 1))
      = occ (4 ^ k) t.counts + 1
    unfold occ
    rw [sum_update_nat _ _ _ _ hmem]
    omega

/-- `remove_kmer` step: under the invariants and `occ ≤ N`, the checked
operation always succeeds (it is a silent no-op on absent codes) and
preserves the invariants. -/
lemma removeKmer_spec (N k : Nat) (t : Tracker) (c0 : Nat)
    (hT : TrackOk N k t) (hH : HistOk N k t)
    (hc0 : c0 < 4 ^ k) (hocc : occ (4 ^ k) t.counts ≤ N) (hN : N ≤ 65535) :
    ∃ t2, t.removeKmer c0 = some t2
      ∧ t2.counts = (if t.counts c0 = 0 then t.counts
          else Function.update t.counts c0 (t.counts c0 - 1))
      ∧ TrackOk N k t2 ∧ HistOk N k t2
      ∧ occ (4 ^ k) t2.counts + (if t.counts c0 = 0 then 0 else 1)
          = occ (4 ^ k) t.counts := by
  classical
  obtain ⟨hw, hsp, hout, hesum⟩ := hT
  obtain ⟨hcc, huniq, hun, hcc0⟩ := hH
  have hmem : c0 ∈ Finset.range (4 ^ k) := Finset.mem_range.mpr hc0
  have hocle : t.counts c0 ≤ occ (4 ^ k) t.counts := counts_le_occ _ _ c0 hc0
  have g1 : c0 < t.kmerSpace := by rw [hsp]; exact hc0
  by_cases h0 : t.counts c0 = 0
  · refine ⟨t, ?_, by rw [if_pos h0], ⟨hw, hsp, hout, hesum⟩, ⟨hcc, huniq, hun, hcc0⟩, ?_⟩
    · simp only [Tracker.removeKmer]
      rw [if_pos g1, if_pos h0]
    · rw [if_pos h0]
      omega
  · have h1 : 1 ≤ t.counts c0 := by omega
    have huniq1 : 1 ≤ t.uniq := by
      rw [huniq]
      refine Finset.card_pos.mpr ⟨c0, ?_⟩
      simp [Finset.mem_filter, Finset.mem_range, hc0, h1]
    have g3 : t.counts c0 < t.windowKmers + 2 ∧ t.counts c0 - 1 < t.windowKmers + 2 := by
      rw [hw]; omega
    have gcc1 : 1 ≤ t.cc (t.counts c0) := by
      rw [hcc (t.counts c0) h1]
      refine Finset.card_pos.mpr ⟨c0, ?_⟩
      simp [Finset.mem_filter, Finset.mem_range, hc0]
    have gcc2 : t.cc (t.counts c0 - 1) + 1 ≤ 65535 := by
      rcases Nat.eq_zero_or_pos (t.counts c0 - 1) with hz | hp
      · rw [hz, hcc0]; omega
      · rw [hcc (t.counts c0 - 1) hp]
        have hsub : (Finset.range (4 ^ k)).filter (fun c => t.counts c = t.counts c0 - 1)
            ⊆ ((Finset.range (4 ^ k)).filter (fun c => 1 ≤ t.counts c)).erase c0 := by
          intro x hx
          simp only [Finset.mem_filter, Finset.mem_erase] at hx ⊢
          refine ⟨fun hxc0 => ?_, hx.1, by omega⟩
          subst hxc0
          omega
        have h2 := Finset.card_le_card hsub
        rw [Finset.card_erase_of_mem
          (by simp [Finset.mem_filter, Finset.mem_range, hc0, h1]), ← huniq] at h2
        omega
    have g4 : 1 ≤ t.cc (t.counts c0) ∧ t.cc (t.counts c0 - 1) + 1 ≤ 65535 := ⟨gcc1, gcc2⟩
    have g5 : ¬(t.counts c0 - 1 = 0 ∧ t.uniq = 0) := by omega
    have hstep : t.removeKmer c0 = some
        { windowKmers := t.windowKmers
          kmerSpace := t.kmerSpace
          counts := Function.update t.counts c0 (t.counts c0 - 1)
          cc := Function.update (Function.update t.cc (t.counts c0) (t.cc (t.counts c0) - 1))
                  (t.counts c0 - 1) (t.cc (t.counts c0 - 1) + 1)
          esum := t.esum + plogp t.windowKmers (t.counts c0 - 1)
                    - plogp t.windowKmers (t.counts c0)
          uniq := if t.counts c0 - 1 = 0 then t.uniq - 1 else t.uniq } := by
      simp only [Tracker.removeKmer]
      rw [if_pos g1, if_neg h0, if_pos g3, if_pos g4, if_neg g5]
    refine ⟨_, hstep, by rw [if_neg h0], ⟨hw, hsp, ?_, ?_⟩, ⟨?_, ?_, ?_, ?_⟩, ?_⟩
    · intro c hcge
      show Function.update t.counts c0 (t.counts c0 - 1) c = 0
      have hne : c ≠ c0 := by omega
      rw [Function.update_apply, if_neg hne]
      exact hout c hcge
    · show t.esum + plogp t.windowKmers (t.counts c0 - 1) - plogp t.windowKmers (t.counts c0)
        = ∑ c ∈ Finset.range (4 ^ k), plogp N (Function.update t.counts c0 (t.counts c0 - 1) c)
      rw [sum_comp_update _ _ _ _ (plogp N) hmem, ← hesum, hw]
    · intro j hj
      show Function.update (Function.update t.cc (t.counts c0) (t.cc (t.counts c0) - 1))
            (t.counts c0 - 1) (t.cc (t.counts c0 - 1) + 1) j
          = ((Finset.range (4 ^ k)).filter
              (fun c => Function.update t.counts c0 (t.counts c0 - 1) c = j)).card
      rw [filter_comp_update_card _ t.counts c0 (t.counts c0 - 1) (fun x => x = j) hmem]
      rw [Function.update_apply, Function.update_apply]
      by_cases hj1 : j = t.counts c0 - 1
      · rw [if_pos hj1]
        have hj1' : 1 ≤ t.counts c0 - 1 := by omega
        rw [hcc (t.counts c0 - 1) hj1', ← hj1]
        rw [if_pos (by omega), if_neg (by omega)]
        omega
      · rw [if_neg hj1]
        by_cases hj2 : j = t.counts c0
        · rw [if_pos hj2]
          rw [hcc (t.counts c0) h1, ← hj2] at gcc1 ⊢
          rw [if_neg (by omega), if_pos (by omega)]
          omega
        · rw [if_neg hj2, hcc j hj]
          rw [if_neg (by omega), if_neg (by omega)]
          omega
    · show (if t.counts c0 - 1 = 0 then t.uniq - 1 else t.uniq)
        = ((Finset.range (4 ^ k)).filter
            (fun c => 1 ≤ Function.update t.counts c0 (t.counts c0 - 1) c)).card
      rw [filter_comp_update_card _ t.counts c0 (t.counts c0 - 1) (fun x => 1 ≤ x) hmem]
      by_cases hz : t.counts c0 - 1 = 0
      · rw [if_pos hz, huniq]
        rw [if_neg (by omega), if_pos (by omega)]
        omega
      · rw [if_neg hz, huniq]
        rw [if_neg (by omega), if_neg (by omega)]
        omega
    · show (if t.counts c0 - 1 = 0 then t.uniq - 1 else t.uniq) ≤ N
      by_cases hz : t.counts c0 - 1 = 0
      · rw [if_pos hz]; omega
      · rw [if_neg hz]; omega
    · show Function.update (Function.update t.cc (t.counts c0) (t.cc (t.counts c0) - 1))
            (t.counts c0 - 1) (t.cc (t.counts c0 - 1) + 1) 0
          = N - (if t.counts c0 - 1 = 0 then t.uniq - 1 else t.uniq)
      by_cases hz : t.counts c0 - 1 = 0
      · rw [Function.update_apply, if_pos (by omega)]
        rw [show t.counts c0 - 1 = 0 from hz, hcc0, if_pos rfl]
        omega
      · rw [Function.update_apply, if_neg (by omega), Function.update_apply,
          if_neg (by omega), hcc0, if_neg hz]
    · rw [if_neg h0]
      show occ (4 ^ k) (Function.update t.counts c0 (t.counts c0 - 1)) + 1
        = occ (4 ^ k) t.counts
      unfold occ
      unfold occ at hocle
      rw [sum_update_nat _ _ _ _ hmem]
      omega

lemma shannonEntropy_pos_total (space : Nat) (m : Nat → Nat) (total : Nat)
    (h0 : total ≠ 0) (hE : 0 < Real.logb 2 (total : ℝ)) :
    shannonEntropy space m total
      = -(∑ c ∈ Finset.range space, plogp total (m c)) / Real.logb 2 (total : ℝ) := by
  simp only [shannonEntropy]
  rw [if_neg h0]
  show (if 0 < Real.logb 2 (total : ℝ) then
      -(∑ c ∈ Finset.range space, plogp total (m c)) / Real.logb 2 (total : ℝ)
    else -(∑ c ∈ Finset.range space, plogp total (m c))) = _
  rw [if_pos hE]

/-- The tracker's O(1) cached entropy agrees exactly (over `ℝ`) with the
from-scratch `shannon_entropy` of its counts: the refinement at the heart
of the dense backend. -/
lemma tracker_entropy_eq (N k : Nat) (t : Tracker) (hT : TrackOk N k t)
    (hN : 2 ≤ N) (hle : ∀ c, t.counts c ≤ N) :
    t.entropy = shannonEntropy (4 ^ k) t.counts N := by
  obtain ⟨hw, hsp, hout, hesum⟩ := hT
  have hNR : (1 : ℝ) < (N : ℝ) := by exact_mod_cast hN
  have hlogb : (0 : ℝ) < Real.logb 2 (N : ℝ) := Real.logb_pos (by norm_num) hNR
  have hesum_nonpos : t.esum ≤ 0 := by
    rw [hesum]
    exact Finset.sum_nonpos fun c _ => plogp_nonpos N (t.counts c) (hle c)
  rw [shannonEntropy_pos_total _ _ _ (by omega) hlogb]
  show max (t.esum * (-1 / Real.logb 2 (t.windowKmers : ℝ))) 0 = _
  rw [hw]
  have hval : t.esum * (-1 / Real.logb 2 (N : ℝ)) = -t.esum / Real.logb 2 (N : ℝ) := by
    ring
  rw [hval, max_eq_left (div_nonneg (by linarith) hlogb.le), hesum]

/-- A sequence of `add_kmer` calls, as driven by the priming loop. -/
noncomputable def applyAdds (L : List Nat) (t : Tracker) : Option Tracker :=
  L.foldlM Tracker.addKmer t

lemma addKmer_some (t t2 : Tracker) (c0 : Nat) (h : t.addKmer c0 = some t2) :
    c0 < t.kmerSpace
    ∧ t2.windowKmers = t.windowKmers ∧ t2.kmerSpace = t.kmerSpace
    ∧ t2.counts = Function.update t.counts c0 (t.counts c0 + 1)
    ∧ t2.esum = t.esum + plogp t.windowKmers (t.counts c0 + 1)
        - plogp t.windowKmers (t.counts c0) := by
  simp only [Tracker.addKmer] at h
  split_ifs at h with h1 h2 h3 h4 h5 <;>
    first
      | (obtain rfl := Option.some.inj h; exact ⟨h1, rfl, rfl, rfl, rfl⟩)
      | exact absurd h (by simp)

lemma trackOk_addKmer_some (N k : Nat) (t t2 : Tracker) (c0 : Nat)
    (h : t.addKmer c0 = some t2) (hT : TrackOk N k t) :
    TrackOk N k t2 ∧ t2.counts = Function.update t.counts c0 (t.counts c0 + 1)
      ∧ c0 < 4 ^ k := by
  obtain ⟨hc0, hw2, hsp2, hcounts, hes⟩ := addKmer_some t t2 c0 h
  obtain ⟨hw, hsp, hout, hesum⟩ := hT
  have hc0' : c0 < 4 ^ k := by rw [hsp] at hc0; exact hc0
  refine ⟨⟨by rw [hw2, hw], by rw [hsp2, hsp], ?_, ?_⟩, hcounts, hc0'⟩
  · intro c hcge
    rw [hcounts, Function.update_apply, if_neg (by omega)]
    exact hout c hcge
  · rw [hes, hcounts, hw, hesum,
      sum_comp_update _ _ _ _ (plogp N) (Finset.mem_range.mpr hc0')]

/-- Conditioned on success, a fold of adds yields the multiset counts of
the added code list (and keeps the esum invariant). -/
lemma applyAdds_some_trackOk (N k : Nat) (L : List Nat) : ∀ t t2,
    applyAdds L t = some t2 → TrackOk N k t →
    TrackOk N k t2 ∧ t2.counts = fun c => t.counts c + L.count c := by
  induction L with
  | nil =>
    intro t t2 h hT
    have : t = t2 := by simpa [applyAdds] using h
    subst this
    exact ⟨hT, by funext c; simp⟩
  | cons c0 L ih =>
    intro t t2 h hT
    simp only [applyAdds, List.foldlM_cons] at h
    rcases Option.bind_eq_some.mp h with ⟨t1, h1, h2⟩
    obtain ⟨hT1, hcounts1, hc0⟩ := trackOk_addKmer_some N k t t1 c0 h1 hT
    obtain ⟨hT2, hcounts2⟩ := ih t1 t2 h2 hT1
    refine ⟨hT2, ?_⟩
    funext c
    simp only [hcounts2, hcounts1, Function.update_apply, List.count_cons]
    by_cases hc : c = c0 <;> simp [hc] <;> omega

/-- Unconditional success of a fold of adds that fits in the window. -/
lemma applyAdds_spec (N k : Nat) (L : List Nat) : ∀ t,
    TrackOk N k t → HistOk N k t →
    occ (4 ^ k) t.counts + L.length ≤ N → (∀ c ∈ L, c < 4 ^ k) → N ≤ 65535 →
    ∃ t2, applyAdds L t = some t2 ∧ TrackOk N k t2 ∧ HistOk N k t2
      ∧ t2.counts = (fun c => t.counts c + L.count c)
      ∧ occ (4 ^ k) t2.counts + L.length = occ (4 ^ k) t.counts + 2 * L.length := by
  induction L with
  | nil =>
    intro t hT hH _ _ _
    exact ⟨t, by simp [applyAdds], hT, hH, by funext c; simp, by simp⟩
  | cons c0 L ih =>
    intro t hT hH hocc hc hN
    obtain ⟨t1, h1, hcounts1, hT1, hH1, hocc1⟩ :=
      addKmer_spec N k t c0 hT hH (hc c0 (by simp)) (by simp at hocc; omega) hN
    obtain ⟨t2, h2, hT2, hH2, hcounts2, hocc2⟩ :=
      ih t1 hT1 hH1 (by simp at hocc; omega) (fun c hcm => hc c (by simp [hcm])) hN
    refine ⟨t2, ?_, hT2, hH2, ?_, ?_⟩
    · simp only [applyAdds, List.foldlM_cons]
      rw [h1]
      exact h2
    · funext c
      simp only [hcounts2, hcounts1, Function.update_apply, List.count_cons]
      by_cases hcc : c = c0 <;> simp [hcc] <;> omega
    · simp only [List.length_cons] at *
      omega

/-- A fold whose body pattern-matches on an encoder equals a fold of the
raw operation over the `filterMap` of the encoder (shape of the priming
loop of `mask_sequence_array`). -/
lemma foldlM_match_filterMap (enc : Nat → Option Nat)
    (f : Tracker → Nat → Option Tracker) (l : List Nat) : ∀ t,
    l.foldlM (fun tt j =>
        match enc j with
        | some c => f tt c
        | none => pure tt) t
      = (l.filterMap enc).foldlM f t := by
  induction l with
  | nil => intro t; rfl
  | cons j l ih =>
    intro t
    cases hj : enc j with
    | none =>
      simp only [List.foldlM_cons, List.filterMap_cons, hj, pure_bind]
      exact ih t
    | some c =>
      simp only [List.foldlM_cons, List.filterMap_cons, hj]
      cases hf : f t c with
      | none => simp [hf]
      | some t1 =>
        simp only [hf, Option.bind_eq_bind, Option.some_bind]
        exact ih t1

lemma sum_count_eq_length (L : List Nat) (S : Nat) (h : ∀ c ∈ L, c < S) :
    ∑ c ∈ Finset.range S, L.count c = L.length := by
  induction L with
  | nil => simp
  | cons c0 L ih =>
    have hc0 : c0 < S := h c0 (by simp)
    have hrest : ∀ c ∈ L, c < S := fun c hc => h c (by simp [hc])
    have hsum : ∑ c ∈ Finset.range S, (c0 :: L).count c
        = ∑ c ∈ Finset.range S, (L.count c + if c0 = c then 1 else 0) := by
      refine Finset.sum_congr rfl fun c _ => ?_
      simp [List.count_cons]
    rw [hsum, Finset.sum_add_distrib, ih hrest, Finset.sum_ite_eq]
    simp [Finset.mem_range.mpr hc0]

lemma applyAdds_fresh_counts (N k w : Nat) (L : List Nat) (t2 : Tracker)
    (hN : N = w - k + 1) (hfold : applyAdds L (freshTracker k w) = some t2) :
    TrackOk N k t2 ∧ t2.counts = fun c => L.count c := by
  obtain ⟨hT2, hcounts⟩ :=
    applyAdds_some_trackOk N k L (freshTracker k w) t2 hfold (trackOk_fresh N k w hN)
  refine ⟨hT2, ?_⟩
  rw [hcounts]
  funext c
  simp [freshTracker]

/-- C5: after exactly `W − k + 1` k-mer occurrences have been added to a
fresh tracker (the full-window state), `entropy()` lies in `[0, 1]`; it
is `0` exactly when all occurrences are of one k-mer, and exactly `1`
when they are pairwise distinct. -/
theorem c5_full_window_entropy (k w : Nat) (L : List Nat) (t2 : Tracker)
    (hk : 1 ≤ k) (hkw : k < w)
    (hlen : L.length = w - k + 1)
    (hcodes : ∀ c ∈ L, c < 4 ^ k)
    (hfold : applyAdds L (freshTracker k w) = some t2) :
    0 ≤ t2.entropy ∧ t2.entropy ≤ 1
      ∧ (t2.entropy = 0 ↔ ∀ a ∈ L, ∀ b ∈ L, a = b)
      ∧ (L.Nodup → t2.entropy = 1) := by
  classical
  set N := w - k + 1 with hNdef
  have hN2 : 2 ≤ N := by omega
  obtain ⟨hT2, hcounts⟩ := applyAdds_fresh_counts N k w L t2 rfl hfold
  obtain ⟨hw2, hsp2, hout2, hesum2⟩ := hT2
  have hsum : ∑ c ∈ Finset.range (4 ^ k), t2.counts c = N := by
    rw [hcounts, sum_count_eq_length L _ hcodes, hlen]
  have hle : ∀ c, t2.counts c ≤ N := by
    intro c
    rw [hcounts]
    calc L.count c ≤ L.length := List.count_le_length c L
      _ = N := hlen
  have hNR : (1 : ℝ) < (N : ℝ) := by exact_mod_cast hN2
  have hlogb : (0 : ℝ) < Real.logb 2 (N : ℝ) := Real.logb_pos (by norm_num) hNR
  have hesum_nonpos : t2.esum ≤ 0 := by
    rw [hesum2]
    exact Finset.sum_nonpos fun c _ => plogp_nonpos N (t2.counts c) (hle c)
  have hent : t2.entropy = max (-t2.esum / Real.logb 2 (N : ℝ)) 0 := by
    show max (t2.esum * (-1 / Real.logb 2 (t2.windowKmers : ℝ))) 0 = _
    rw [hw2]
    congr 1
    ring
  refine ⟨?_, ?_, ?_, ?_⟩
  · rw [hent]; exact le_max_right _ _
  · rw [hent]
    refine max_le ?_ (by norm_num)
    rw [div_le_one hlogb, hesum2]
    exact neg_sum_plogp_le_logb (4 ^ k) N hN2 t2.counts hsum
  · rw [hent, max_eq_right_iff]
    have hstep1 : -t2.esum / Real.logb 2 (N : ℝ) ≤ 0 ↔ t2.esum = 0 := by
      constructor
      · intro hdiv
        rcases div_nonpos_iff.mp hdiv with ⟨h1, h2⟩ | ⟨h1, h2⟩
        · linarith
        · linarith
      · intro h0; rw [h0]; simp
    rw [hstep1, hesum2]
    have hzero : (∑ c ∈ Finset.range (4 ^ k), plogp N (t2.counts c)) = 0
        ↔ ∀ c ∈ Finset.range (4 ^ k), plogp N (t2.counts c) = 0 :=
      Finset.sum_eq_zero_iff_of_nonpos fun c _ => plogp_nonpos N (t2.counts c) (hle c)
    rw [hzero]
    constructor
    · intro hall
      have hLne : L ≠ [] := by
        intro h0; rw [h0] at hlen; simp at hlen; omega
      obtain ⟨a, ha⟩ := List.exists_mem_of_ne_nil L hLne
      have hca : t2.counts a = L.count a := by rw [hcounts]
      have haN : L.count a = N := by
        have hc := hall a (Finset.mem_range.mpr (hcodes a ha))
        rw [hca] at hc
        have hzn := (plogp_eq_zero_iff N (L.count a) hN2 (hca ▸ hle a)).mp hc
        have hpos : 1 ≤ L.count a := List.count_pos_iff.mpr ha
        rcases hzn with h0 | hN0
        · omega
        · exact hN0
      have hall2 : ∀ b ∈ L, a = b := by
        apply List.count_eq_length.mp
        rw [haN, hlen]
      intro x hx y hy
      rw [← hall2 x hx, ← hall2 y hy]
    · intro hall c hc
      simp only [hcounts]
      by_cases hm : c ∈ L
      · have hallb : ∀ b ∈ L, c = b := fun b hb => hall c hm b hb
        have hcnt : L.count c = L.length := List.count_eq_length.mpr hallb
        rw [hcnt, hlen]
        exact (plogp_eq_zero_iff N N hN2 (le_refl N)).mpr (Or.inr rfl)
      · rw [List.count_eq_zero.mpr hm]
        exact plogp_zero N
  · intro hnodup
    have hfilter : (Finset.range (4 ^ k)).filter (fun c => c ∈ L) = L.toFinset := by
      apply Finset.ext
      intro x
      simp only [Finset.mem_filter, Finset.mem_range, List.mem_toFinset]
      constructor
      · exact fun h => h.2
      · exact fun h => ⟨hcodes x h, h⟩
    have hesumval : t2.esum = (N : ℝ) * plogp N 1 := by
      rw [hesum2]
      have hterm : ∀ c ∈ Finset.range (4 ^ k),
          plogp N (t2.counts c) = if c ∈ L then plogp N 1 else 0 := by
        intro c _
        simp only [hcounts]
        by_cases hm : c ∈ L
        · rw [if_pos hm, List.count_eq_one_of_mem hnodup hm]
        · rw [if_neg hm, List.count_eq_zero.mpr hm]
          exact plogp_zero N
      rw [Finset.sum_congr rfl hterm, ← Finset.sum_filter, hfilter, Finset.sum_const,
        List.toFinset_card_of_nodup hnodup, hlen]
      simp [nsmul_eq_mul]
    have hplogp1 : plogp N 1 = -(Real.logb 2 (N : ℝ)) / N := by
      simp only [plogp, if_neg (by omega : ¬(1 : Nat) = 0)]
      push_cast
      rw [one_div, Real.logb_inv]
      ring
    rw [hent, hesumval, hplogp1]
    have hNne : (N : ℝ) ≠ 0 := by positivity
    have hval : -((N : ℝ) * (-(Real.logb 2 (N : ℝ)) / N)) / Real.logb 2 (N : ℝ) = 1 := by
      field_simp
    rw [hval]
    simp

/-- Full characterization of a successful `add_kmer`, including the
histogram fields and the fact that the decremented histogram cell was
positive (no `u16` underflow occurred). -/
lemma addKmer_some_full (t t2 : Tracker) (c0 : Nat) (h : t.addKmer c0 = some t2) :
    c0 < t.kmerSpace
    ∧ t2.windowKmers = t.windowKmers ∧ t2.kmerSpace = t.kmerSpace
    ∧ t2.counts = Function.update t.counts c0 (t.counts c0 + 1)
    ∧ t2.cc = Function.update (Function.update t.cc (t.counts c0) (t.cc (t.counts c0) - 1))
        (t.counts c0 + 1) (t.cc (t.counts c0 + 1) + 1)
    ∧ t2.uniq = (if t.counts c0 = 0 then t.uniq + 1 else t.uniq)
    ∧ 1 ≤ t.cc (t.counts c0) := by
  simp only [Tracker.addKmer] at h
  split_ifs at h with h1 h2 h3 h4 h5 <;>
    first
      | (obtain rfl := Option.some.inj h
         exact ⟨h1, rfl, rfl, rfl, rfl, by rw [if_pos h5], h4.1⟩)
      | (obtain rfl := Option.some.inj h
         exact ⟨h1, rfl, rfl, rfl, rfl, by rw [if_neg h5], h4.1⟩)
      | exact absurd h (by simp)

/-- Full characterization of a successful `remove_kmer`. -/
lemma removeKmer_some_full (t t2 : Tracker) (c0 : Nat) (h : t.removeKmer c0 = some t2) :
    c0 < t.kmerSpace ∧
    ((t.counts c0 = 0 ∧ t2 = t) ∨
      (1 ≤ t.counts c0
        ∧ t2.windowKmers = t.windowKmers ∧ t2.kmerSpace = t.kmerSpace
        ∧ t2.counts = Function.update t.counts c0 (t.counts c0 - 1)
        ∧ t2.cc = Function.update
            (Function.update t.cc (t.counts c0) (t.cc (t.counts c0) - 1))
            (t.counts c0 - 1) (t.cc (t.counts c0 - 1) + 1)
        ∧ t2.uniq = (if t.counts c0 - 1 = 0 then t.uniq - 1 else t.uniq)
        ∧ t2.esum = t.esum + plogp t.windowKmers (t.counts c0 - 1)
            - plogp t.windowKmers (t.counts c0)
        ∧ 1 ≤ t.cc (t.counts c0)
        ∧ (t.counts c0 - 1 = 0 → 1 ≤ t.uniq))) := by
  simp only [Tracker.removeKmer] at h
  split_ifs at h with h1 h2 h3 h4 h5 h6 <;>
    first
      | (obtain rfl := Option.some.inj h
         exact ⟨h1, Or.inl ⟨h2, rfl⟩⟩)
      | (obtain rfl := Option.some.inj h
         refine ⟨h1, Or.inr ⟨by omega, rfl, rfl, rfl, rfl, by rw [if_pos h6], rfl, h4.1,
           fun _ => by omega⟩⟩)
      | (obtain rfl := Option.some.inj h
         refine ⟨h1, Or.inr ⟨by omega, rfl, rfl, rfl, rfl, by rw [if_neg h6], rfl, h4.1,
           fun hz => absurd hz h6⟩⟩)
      | exact absurd h (by simp)

lemma addKmer_some_esum (t t2 : Tracker) (c0 : Nat) (h : t.addKmer c0 = some t2) :
    t2.esum = t.esum + plogp t.windowKmers (t.counts c0 + 1)
      - plogp t.windowKmers (t.counts c0) :=
  (addKmer_some t t2 c0 h).2.2.2.2

/-- Histogram invariant preservation for a successful `add_kmer`, with no
occupancy assumption: conditioning on success replaces it. -/
lemma histOk_addKmer_some (N k : Nat) (t t2 : Tracker) (c0 : Nat)
    (h : t.addKmer c0 = some t2) (hT : TrackOk N k t) (hH : HistOk N k t) :
    HistOk N k t2 := by
  classical
  obtain ⟨hc0, hw2, hsp2, hcounts, hccf, huniqf, hccpos⟩ := addKmer_some_full t t2 c0 h
  obtain ⟨hw, hsp, hout, hesum⟩ := hT
  obtain ⟨hcc, huniq, hun, hcc0⟩ := hH
  have hc0' : c0 < 4 ^ k := by rw [hsp] at hc0; exact hc0
  have hmem : c0 ∈ Finset.range (4 ^ k) := Finset.mem_range.mpr hc0'
  have huniqlt : t.counts c0 = 0 → t.uniq < N := by
    intro h0
    rw [h0, hcc0] at hccpos
    omega
  refine ⟨?_, ?_, ?_, ?_⟩
  · intro j hj
    rw [hccf, hcounts]
    rw [filter_comp_update_card _ t.counts c0 (t.counts c0 + 1) (fun x => x = j) hmem]
    rw [Function.update_apply, Function.update_apply]
    by_cases hj1 : j = t.counts c0 + 1
    · rw [if_pos hj1]
      rw [hcc (t.counts c0 + 1) (by omega), ← hj1]
      rw [if_pos (by omega), if_neg (by omega)]
      omega
    · rw [if_neg hj1]
      by_cases hj2 : j = t.counts c0
      · subst hj2
        have hj2' : 1 ≤ t.counts c0 := hj
        rw [if_pos rfl]
        rw [hcc (t.counts c0) hj2'] at hccpos
        rw [hcc (t.counts c0) hj2']
        rw [if_neg (by omega), if_pos (by omega)]
        omega
      · rw [if_neg hj2, hcc j hj]
        rw [if_neg (by omega), if_neg (by omega)]
        omega
  · rw [huniqf, hcounts]
    rw [filter_comp_update_card _ t.counts c0 (t.counts c0 + 1) (fun x => 1 ≤ x) hmem]
    by_cases h0 : t.counts c0 = 0
    · rw [if_pos h0, huniq, h0]
      rw [if_pos (by omega), if_neg (by omega)]
      omega
    · rw [if_neg h0, huniq]
      rw [if_neg (by omega), if_neg (by omega)]
      omega
  · rw [huniqf]
    by_cases h0 : t.counts c0 = 0
    · rw [if_pos h0]
      have := huniqlt h0
      omega
    · rw [if_neg h0]; omega
  · rw [hccf, huniqf]
    rw [Function.update_apply, if_neg (by omega), Function.update_apply]
    by_cases h0 : t.counts c0 = 0
    · rw [if_pos (by omega), h0, hcc0, if_pos rfl]
      have := huniqlt h0
      omega
    · rw [if_neg (by omega), hcc0, if_neg h0]

/-- Histogram invariant preservation for a successful `remove_kmer`. -/
lemma histOk_removeKmer_some (N k : Nat) (t t2 : Tracker) (c0 : Nat)
    (h : t.removeKmer c0 = some t2) (hT : TrackOk N k t) (hH : HistOk N k t) :
    HistOk N k t2 := by
  classical
  obtain ⟨hc0, hcase⟩ := removeKmer_some_full t t2 c0 h
  obtain ⟨hw, hsp, hout, hesum⟩ := hT
  obtain ⟨hcc, huniq, hun, hcc0⟩ := hH
  rcases hcase with ⟨h0, rfl⟩ | ⟨h1, hw2, hsp2, hcounts, hccf, huniqf, hesumf, hccpos, huz⟩
  · exact ⟨hcc, huniq, hun, hcc0⟩
  have hc0' : c0 < 4 ^ k := by rw [hsp] at hc0; exact hc0
  have hmem : c0 ∈ Finset.range (4 ^ k) := Finset.mem_range.mpr hc0'
  have huniq1 : 1 ≤ t.uniq := by
    rw [huniq]
    refine Finset.card_pos.mpr ⟨c0, ?_⟩
    simp [Finset.mem_filter, Finset.mem_range, hc0', h1]
  refine ⟨?_, ?_, ?_, ?_⟩
  · intro j hj
    rw [hccf, hcounts]
    rw [filter_comp_update_card _ t.counts c0 (t.counts c0 - 1) (fun x => x = j) hmem]
    rw [Function.update_apply, Function.update_apply]
    by_cases hj1 : j = t.counts c0 - 1
    · rw [if_pos hj1]
      have hj1' : 1 ≤ t.counts c0 - 1 := by omega
      rw [hcc (t.counts c0 - 1) hj1', ← hj1]
      rw [if_pos (by omega), if_neg (by omega)]
      omega
    · rw [if_neg hj1]
      by_cases hj2 : j = t.counts c0
      · subst hj2
        rw [if_pos rfl]
        rw [hcc (t.counts c0) h1] at hccpos
        rw [hcc (t.counts c0) h1]
        rw [if_neg (by omega), if_pos (by omega)]
        omega
      · rw [if_neg hj2, hcc j hj]
        rw [if_neg (by omega), if_neg (by omega)]
        omega
  · rw [huniqf, hcounts]
    rw [filter_comp_update_card _ t.counts c0 (t.counts c0 - 1) (fun x => 1 ≤ x) hmem]
    by_cases hz : t.counts c0 - 1 = 0
    · rw [if_pos hz, huniq]
      rw [if_neg (by omega), if_pos (by omega)]
      omega
    · rw [if_neg hz, huniq]
      rw [if_neg (by omega), if_neg (by omega)]
      omega
  · rw [huniqf]
    by_cases hz : t.counts c0 - 1 = 0
    · rw [if_pos hz]; omega
    · rw [if_neg hz]; omega
  · rw [hccf, huniqf]
    by_cases hz : t.counts c0 - 1 = 0
    · rw [Function.update_apply, if_pos (by omega)]
      rw [show t.counts c0 - 1 = 0 from hz, hcc0, if_pos rfl]
      omega
    · rw [Function.update_apply, if_neg (by omega), Function.update_apply,
        if_neg (by omega), hcc0, if_neg hz]

lemma trackOk_removeKmer_some (N k : Nat) (t t2 : Tracker) (c0 : Nat)
    (h : t.removeKmer c0 = some t2) (hT : TrackOk N k t) : TrackOk N k t2 := by
  obtain ⟨hc0, hcase⟩ := removeKmer_some_full t t2 c0 h
  obtain ⟨hw, hsp, hout, hesum⟩ := hT
  rcases hcase with ⟨h0, rfl⟩ | ⟨h1, hw2, hsp2, hcounts, hccf, huniqf, hesumf, hccpos, huz⟩
  · exact ⟨hw, hsp, hout, hesum⟩
  have hc0' : c0 < 4 ^ k := by rw [hsp] at hc0; exact hc0
  refine ⟨by rw [hw2, hw], by rw [hsp2, hsp], ?_, ?_⟩
  · intro c hcge
    rw [hcounts, Function.update_apply, if_neg (by omega)]
    exact hout c hcge
  · rw [hesumf, hcounts, hw, hesum,
      sum_comp_update _ _ _ _ (plogp N) (Finset.mem_range.mpr hc0')]

/-- An add/remove call trace on the tracker; `true` marks an add. -/
noncomputable def applyOps (ops : List (Bool × Nat)) (t : Tracker) : Option Tracker :=
  ops.foldlM (fun tt op => if op.1 then tt.addKmer op.2 else tt.removeKmer op.2) t

lemma applyOps_inv (N k : Nat) (ops : List (Bool × Nat)) : ∀ t t2,
    applyOps ops t = some t2 → TrackOk N k t → HistOk N k t →
    TrackOk N k t2 ∧ HistOk N k t2 := by
  induction ops with
  | nil =>
    intro t t2 h hT hH
    have : t = t2 := by simpa [applyOps] using h
    subst this
    exact ⟨hT, hH⟩
  | cons op ops ih =>
    intro t t2 h hT hH
    simp only [applyOps, List.foldlM_cons] at h
    rcases Option.bind_eq_some.mp h with ⟨t1, h1, h2⟩
    by_cases hop : op.1
    · rw [if_pos hop] at h1
      have hT1 := (trackOk_addKmer_some N k t t1 op.2 h1 hT).1
      have hH1 := histOk_addKmer_some N k t t1 op.2 h1 hT hH
      exact ih t1 t2 h2 hT1 hH1
    · rw [if_neg hop] at h1
      have hT1 := trackOk_removeKmer_some N k t t1 op.2 h1 hT
      have hH1 := histOk_removeKmer_some N k t t1 op.2 h1 hT hH
      exact ih t1 t2 h2 hT1 hH1

/-- Witness for C5 at `k = 1`, `w = 3`, three pairwise-distinct codes. -/
theorem c5_full_window_entropy_witness :
    ∃ t2, applyAdds [0, 1, 2] (freshTracker 1 3) = some t2
      ∧ (0 ≤ t2.entropy ∧ t2.entropy ≤ 1
        ∧ (t2.entropy = 0 ↔ ∀ a ∈ [0, 1, 2], ∀ b ∈ [0, 1, 2], a = b)
        ∧ (([0, 1, 2] : List Nat).Nodup → t2.entropy = 1)) := by
  obtain ⟨t2, hfold, -, -, -, -⟩ :=
    applyAdds_spec 3 1 [0, 1, 2] (freshTracker 1 3)
      (trackOk_fresh 3 1 3 rfl) (histOk_fresh 3 1 3 rfl (by norm_num))
      (by simp [occ, freshTracker]) (by decide) (by norm_num)
  exact ⟨t2, hfold,
    c5_full_window_entropy 1 3 [0, 1, 2] t2 (by decide) (by decide) (by decide)
      (by decide) hfold⟩

/-- C8 (amended): after `new`/`clear` and any successful sequence of
adds and removes, `count_histogram[j] = |{c : counts[c] = j}|` holds for
every `j ≥ 1`; at `j = 0` the histogram instead holds
`window_kmers − unique` (the number of zero-count codes would be
`4^k − unique`).  Requires `window_kmers ≤ 65535` so that the `u16`
initialisation `count_counts[0] = window_kmers as u16` is exact. -/
theorem c8_histogram_invariant (k w : Nat) (ops : List (Bool × Nat)) (t2 : Tracker)
    (hk : 1 ≤ k) (hkw : k < w) (hN : w - k + 1 ≤ 65535)
    (hops : applyOps ops (freshTracker k w) = some t2) :
    (∀ j, 1 ≤ j →
        t2.cc j = ((Finset.range (4 ^ k)).filter (fun c => t2.counts c = j)).card)
    ∧ t2.uniq = ((Finset.range (4 ^ k)).filter (fun c => 1 ≤ t2.counts c)).card
    ∧ t2.cc 0 = (w - k + 1) - t2.uniq := by
  obtain ⟨-, hH2⟩ := applyOps_inv (w - k + 1) k ops (freshTracker k w) t2 hops
    (trackOk_fresh (w - k + 1) k w rfl) (histOk_fresh (w - k + 1) k w rfl hN)
  exact ⟨hH2.hcc, hH2.huniq, hH2.hcc0⟩

/-- Witness for the amended C8: the empty trace on a fresh tracker. -/
theorem c8_histogram_invariant_witness :
    (∀ j, 1 ≤ j →
        (freshTracker 1 3).cc j
          = ((Finset.range (4 ^ 1)).filter
              (fun c => (freshTracker 1 3).counts c = j)).card)
    ∧ (freshTracker 1 3).uniq
        = ((Finset.range (4 ^ 1)).filter
            (fun c => 1 ≤ (freshTracker 1 3).counts c)).card
    ∧ (freshTracker 1 3).cc 0 = (3 - 1 + 1) - (freshTracker 1 3).uniq :=
  c8_histogram_invariant 1 3 [] (freshTracker 1 3) (by decide) (by decide)
    (by decide) rfl

/-- C8 as stated is false at `j = 0`: immediately after `new(1, 3)`,
`count_histogram[0]` holds `window_kmers = 3`, but all `4^1 = 4` codes
have count `0`. -/
theorem c8_histogram_counterexample :
    ¬ ((freshTracker 1 3).cc 0
        = ((Finset.range (4 ^ 1)).filter
            (fun c => (freshTracker 1 3).counts c = 0)).card) := by
  decide

lemma tripletCounts_go : ∀ (trips : List Nat) (f : Nat → Nat),
    (∀ x ∈ trips, x < 64) → (∀ c, f c + trips.length ≤ 65535) →
    trips.foldlM
      (fun f tr =>
        if 64 ≤ tr then none
        else if f tr + 1 ≤ 65535 then some (Function.update f tr (f tr + 1))
        else none)
      f
      = some (fun c => f c + trips.count c) := by
  intro trips
  induction trips with
  | nil =>
    intro f _ _
    rw [List.foldlM_nil]
    exact congrArg some (funext fun c => by simp)
  | cons tr trips ih =>
    intro f htr hb
    simp only [List.foldlM_cons]
    rw [if_neg (show ¬64 ≤ tr from by have := htr tr (by simp); omega)]
    rw [if_pos (show f tr + 1 ≤ 65535 from by
      have := hb tr
      simp only [List.length_cons] at this
      omega)]
    simp only [Option.bind_eq_bind, Option.some_bind]
    rw [ih (Function.update f tr (f tr + 1)) (fun x hx => htr x (by simp [hx]))
      (fun c => by
        rw [Function.update_apply]
        have h1 := hb c
        have h2 := hb tr
        simp only [List.length_cons] at h1 h2
        split_ifs with h
        · omega
        · omega)]
    refine congrArg some (funext fun c => ?_)
    rw [Function.update_apply]
    by_cases hc : c = tr
    · subst hc
      simp [List.count_cons]
      omega
    · rw [if_neg hc]
      simp [List.count_cons, hc]

lemma tripletCounts_spec (trips : List Nat) (htr : ∀ x ∈ trips, x < 64)
    (hlen : trips.length ≤ 65535) :
    tripletCounts trips = some (fun c => trips.count c) := by
  unfold tripletCounts
  rw [tripletCounts_go trips (fun _ => 0) htr (fun c => by simpa using hlen)]
  exact congrArg some (funext fun c => by simp)

lemma int_pred_div (a : ℕ) : ((a * (a - 1) / 2 : ℕ) : ℤ) = (a : ℤ) * ((a : ℤ) - 1) / 2 := by
  cases a with
  | zero => simp
  | succ a =>
    rw [Nat.add_sub_cancel, Int.natCast_div]
    push_cast
    congr 1
    ring

lemma list_range_map_sum (g : ℕ → ℤ) : ∀ n : ℕ,
    ((List.range n).map g).sum = ∑ c ∈ Finset.range n, g c := by
  intro n
  induction n with
  | zero => simp
  | succ n ih =>
    rw [List.range_succ, List.map_append, List.sum_append, Finset.sum_range_succ, ih]
    simp

lemma dustScore_eq_natCast (trips : List Nat) :
    dustScore trips
      = ((∑ c ∈ Finset.range 64, trips.count c * (trips.count c - 1) / 2 : ℕ) : ℤ) := by
  unfold dustScore
  rw [Nat.cast_sum]
  exact Finset.sum_congr rfl fun c _ => (int_pred_div (trips.count c)).symm

lemma dust_sumN_le (trips : List Nat) (htr : ∀ x ∈ trips, x < 64) :
    ∑ c ∈ Finset.range 64, trips.count c * (trips.count c - 1) / 2
      ≤ trips.length * (trips.length - 1) / 2 := by
  have h1 : ∑ c ∈ Finset.range 64, trips.count c * (trips.count c - 1) / 2
      ≤ (∑ c ∈ Finset.range 64, trips.count c * (trips.count c - 1)) / 2 := by
    rw [Nat.le_div_iff_mul_le (by norm_num)]
    calc (∑ c ∈ Finset.range 64, trips.count c * (trips.count c - 1) / 2) * 2
        = ∑ c ∈ Finset.range 64, trips.count c * (trips.count c - 1) / 2 * 2 := by
          rw [Finset.sum_mul]
      _ ≤ ∑ c ∈ Finset.range 64, trips.count c * (trips.count c - 1) :=
          Finset.sum_le_sum fun c _ => Nat.div_mul_le_self _ _
  have h2 : ∑ c ∈ Finset.range 64, trips.count c * (trips.count c - 1)
      ≤ trips.length * (trips.length - 1) := by
    have hS : ∑ c ∈ Finset.range 64, trips.count c = trips.length :=
      sum_count_eq_length trips 64 htr
    calc ∑ c ∈ Finset.range 64, trips.count c * (trips.count c - 1)
        ≤ ∑ c ∈ Finset.range 64, trips.count c * (trips.length - 1) :=
          Finset.sum_le_sum fun c _ => Nat.mul_le_mul_left _
            (Nat.sub_le_sub_right (List.count_le_length c trips) 1)
      _ = (∑ c ∈ Finset.range 64, trips.count c) * (trips.length - 1) := by
          rw [← Finset.sum_mul]
      _ = trips.length * (trips.length - 1) := by rw [hS]
  exact le_trans h1 (Nat.div_le_div_right h2)

lemma scoreFold_go (m : Nat → Nat) (B : ℤ) (hB0 : 0 ≤ B) (hB2 : B * B ≤ 2147483647)
    (hm : ∀ c, (m c : ℤ) ≤ B) :
    ∀ (l : List Nat) (s : ℤ), 0 ≤ s →
      s + (l.map (fun c => ((m c * (m c - 1) / 2 : ℕ) : ℤ))).sum ≤ 2147483647 →
      l.foldlM
        (fun (score : ℤ) c =>
          if 1 < (m c : ℤ) then
            if -2147483648 ≤ (m c : ℤ) * ((m c : ℤ) - 1)
                ∧ (m c : ℤ) * ((m c : ℤ) - 1) ≤ 2147483647 then
              if -2147483648 ≤ score + (m c : ℤ) * ((m c : ℤ) - 1) / 2
                  ∧ score + (m c : ℤ) * ((m c : ℤ) - 1) / 2 ≤ 2147483647 then
                some (score + (m c : ℤ) * ((m c : ℤ) - 1) / 2)
              else none
            else none
          else some score)
        s
      = some (s + (l.map (fun c => ((m c * (m c - 1) / 2 : ℕ) : ℤ))).sum) := by
  intro l
  induction l with
  | nil =>
    intro s _ _
    rw [List.foldlM_nil]
    simp
  | cons c l ih =>
    intro s hs hbound
    have hterm : ((m c * (m c - 1) / 2 : ℕ) : ℤ) = (m c : ℤ) * ((m c : ℤ) - 1) / 2 :=
      int_pred_div (m c)
    have hrestpos : 0 ≤ (l.map (fun c => ((m c * (m c - 1) / 2 : ℕ) : ℤ))).sum := by
      apply List.sum_nonneg
      intro x hx
      obtain ⟨c1, -, rfl⟩ := List.mem_map.mp hx
      exact Int.natCast_nonneg _
    simp only [List.map_cons, List.sum_cons] at hbound
    simp only [List.foldlM_cons]
    by_cases h1 : 1 < (m c : ℤ)
    · rw [if_pos h1]
      have hprod : (0 : ℤ) ≤ (m c : ℤ) * ((m c : ℤ) - 1) :=
        mul_nonneg (Int.natCast_nonneg _) (by linarith)
      rw [if_pos (show -2147483648 ≤ (m c : ℤ) * ((m c : ℤ) - 1)
          ∧ (m c : ℤ) * ((m c : ℤ) - 1) ≤ 2147483647 from by
        constructor
        · linarith
        · nlinarith [mul_le_mul (hm c) (hm c) (Int.natCast_nonneg (m c)) hB0,
            Int.natCast_nonneg (m c)])]
      have htp : 0 ≤ (m c : ℤ) * ((m c : ℤ) - 1) / 2 := by
        rw [← hterm]
        exact Int.natCast_nonneg _
      rw [if_pos (show -2147483648 ≤ s + (m c : ℤ) * ((m c : ℤ) - 1) / 2
          ∧ s + (m c : ℤ) * ((m c : ℤ) - 1) / 2 ≤ 2147483647 from by
        constructor
        · linarith
        · rw [← hterm]
          linarith)]
      simp only [Option.bind_eq_bind, Option.some_bind]
      rw [ih (s + (m c : ℤ) * ((m c : ℤ) - 1) / 2) (by linarith)
        (by rw [← hterm]; linarith)]
      refine congrArg some ?_
      rw [List.map_cons, List.sum_cons, hterm]
      ring
    · rw [if_neg h1]
      simp only [Option.bind_eq_bind, Option.some_bind]
      have hz : ((m c * (m c - 1) / 2 : ℕ) : ℤ) = 0 := by
        have h2 : m c ≤ 1 := by
          have h3 : (m c : ℤ) ≤ 1 := by linarith
          exact_mod_cast h3
        interval_cases h : m c <;> simp
      rw [ih s hs (by rw [hz] at hbound; linarith)]
      refine congrArg some ?_
      rw [List.map_cons, List.sum_cons, hz]
      ring

/-- C7 (amended): the DUST scorer computes `score = Σ_c c·(c−1)/2` and
flags iff `10·score > T·W_dust` *provided the `u16`/`i32` machine
arithmetic is exact*: the window holds at most 20724 triplets (so the
`u16` counters, the `i32` products `c·(c−1)` and `score·10`, and the
score accumulation all fit) and `T·W_dust` fits in `i32`.  Without the
bound the claim is false — on a window of ≥ 65536 equal triplets the
counter increment overflows `u16` and the scorer panics instead of
computing the formula (see the counterexample). -/
theorem c7_dust_score_flag (trips : List Nat) (threshold : ℤ)
    (htr : ∀ x ∈ trips, x < 64) (hn : trips.length ≤ 20724)
    (hT : -2147483648 ≤ threshold * (trips.length : ℤ)
      ∧ threshold * (trips.length : ℤ) ≤ 2147483647) :
    scoreWindow trips = some (dustScore trips)
    ∧ shouldMask threshold (dustScore trips) trips.length
      = some (if trips.length = 0 then false
          else decide (threshold * (trips.length : ℤ) < dustScore trips * 10)) := by
  have hNle : ∑ c ∈ Finset.range 64, trips.count c * (trips.count c - 1) / 2
      ≤ 214731726 := by
    have h1 := dust_sumN_le trips htr
    have h2 : trips.length * (trips.length - 1) / 2 ≤ 214731726 := by
      have h3 : trips.length * (trips.length - 1) ≤ 20724 * 20723 :=
        Nat.mul_le_mul hn (by omega)
      calc trips.length * (trips.length - 1) / 2
          ≤ 20724 * 20723 / 2 := Nat.div_le_div_right h3
        _ = 214731726 := by norm_num
    omega
  have hd0 : 0 ≤ dustScore trips := by
    rw [dustScore_eq_natCast]
    exact Int.natCast_nonneg _
  have hdle : dustScore trips ≤ 214731726 := by
    rw [dustScore_eq_natCast]
    exact_mod_cast hNle
  constructor
  · unfold scoreWindow
    rw [tripletCounts_spec trips htr (by omega), Option.some_bind]
    have hb : (0 : ℤ) + ((List.range 64).map
        (fun c => ((trips.count c * (trips.count c - 1) / 2 : ℕ) : ℤ))).sum
        ≤ 2147483647 := by
      rw [zero_add, list_range_map_sum, ← Nat.cast_sum]
      exact_mod_cast le_trans hNle (by norm_num)
    have hgo := scoreFold_go (fun c => trips.count c) 20724 (by norm_num) (by norm_num)
      (fun c => by exact_mod_cast le_trans (List.count_le_length c trips) hn)
      (List.range 64) 0 le_rfl hb
    exact hgo.trans (congrArg some (by
      rw [zero_add, list_range_map_sum, dustScore_eq_natCast, Nat.cast_sum]))
  · unfold shouldMask
    by_cases h0 : trips.length = 0
    · rw [if_pos h0, if_pos h0]
    · rw [if_neg h0, if_neg h0]
      rw [if_pos (show -2147483648 ≤ dustScore trips * 10
          ∧ dustScore trips * 10 ≤ 2147483647 from ⟨by linarith, by linarith⟩)]
      rw [show trips.length % 4294967296 = trips.length from Nat.mod_eq_of_lt (by omega)]
      rw [if_pos (show trips.length < 2147483648 from by omega)]
      rw [if_pos hT]

theorem c7_dust_score_flag_witness :
    ((∀ x ∈ ([0, 0, 5] : List Nat), x < 64) ∧ ([0, 0, 5] : List Nat).length ≤ 20724
      ∧ -2147483648 ≤ (20 : ℤ) * (([0, 0, 5] : List Nat).length : ℤ)
      ∧ (20 : ℤ) * (([0, 0, 5] : List Nat).length : ℤ) ≤ 2147483647)
    ∧ (scoreWindow [0, 0, 5] = some (dustScore [0, 0, 5])
      ∧ shouldMask 20 (dustScore [0, 0, 5]) ([0, 0, 5] : List Nat).length
        = some (if ([0, 0, 5] : List Nat).length = 0 then false
            else decide ((20 : ℤ) * (([0, 0, 5] : List Nat).length : ℤ)
              < dustScore [0, 0, 5] * 10))) :=
  ⟨⟨by decide, by decide, by decide, by decide⟩,
    c7_dust_score_flag [0, 0, 5] 20 (by decide) (by decide) ⟨by decide, by decide⟩⟩

lemma tripletCounts_rep_none : ∀ (n j : ℕ), j ≤ 65535 → 65536 ≤ j + n →
    (List.replicate n 0).foldlM
      (fun f tr =>
        if 64 ≤ tr then none
        else if f tr + 1 ≤ 65535 then some (Function.update f tr (f tr + 1))
        else none)
      (Function.update (fun _ => 0) 0 j) = none := by
  intro n
  induction n with
  | zero =>
    intro j h1 h2
    omega
  | succ n ih =>
    intro j h1 h2
    rw [List.replicate_succ]
    simp only [List.foldlM_cons]
    rw [if_neg (show ¬(64 : ℕ) ≤ 0 from by omega)]
    rw [Function.update_same]
    by_cases hj : j = 65535
    · rw [if_neg (show ¬j + 1 ≤ 65535 from by omega)]
      rfl
    · rw [if_pos (show j + 1 ≤ 65535 from by omega)]
      simp only [Option.bind_eq_bind, Option.some_bind]
      rw [Function.update_idem]
      exact ih (j + 1) (by omega) (by omega)

lemma scoreWindow_rep_none : scoreWindow (List.replicate 65536 0) = none := by
  have h0 : Function.update (fun _ : Nat => (0 : Nat)) 0 0 = fun _ : Nat => (0 : Nat) :=
    Function.update_eq_self 0 _
  have h1 : tripletCounts (List.replicate 65536 0) = none := by
    unfold tripletCounts
    rw [← h0]
    exact tripletCounts_rep_none 65536 0 (by norm_num) (by norm_num)
  unfold scoreWindow
  rw [h1]
  rfl

/-- C7 counterexample: on a window of 65536 identical valid triplets
(code 0, i.e. `AAA` repeated — reachable since `dust_window` is
user-supplied), the 65536th `counts[t] += 1` overflows the `u16`
counter, so `score_window` panics (`none`) and does not compute the
claimed `Σ_c c·(c−1)/2`. -/
theorem c7_dust_score_flag_counterexample :
    scoreWindow (List.replicate 65536 0) ≠ some (dustScore (List.replicate 65536 0)) := by
  rw [scoreWindow_rep_none]
  intro h
  exact Option.noConfusion h

lemma foldl_fixed {α β : Type} (l : List β) (f : α → β → α) (z : α)
    (h : ∀ a, ∀ b ∈ l, f a b = a) : l.foldl f z = z := by
  induction l generalizing z with
  | nil => rfl
  | cons b l ih =>
    simp only [List.foldl_cons]
    rw [h z b (by simp)]
    exact ih z fun a b2 hb2 => h a b2 (by simp [hb2])

/-!  Characterization of the sliding-window maskers. -/

/-- Entropy of the full window starting at `ws` (spec §4.6), computed
from scratch: the `shannon_entropy` of the valid-k-mer counts of the
`W − k + 1` k-mer positions of the window, with total `W − k + 1`. -/
noncomputable def windowEntropy (seq : List Nat) (w k ws : Nat) : ℝ :=
  shannonEntropy (4 ^ k) (kmerCountF seq k ws (w - k + 1)) (w - k + 1)

/-- A full window `[ws, ws + w)` is flagged when its entropy is below
the threshold. -/
def flagged (seq : List Nat) (w k : Nat) (t : ℝ) (ws : Nat) : Prop :=
  windowEntropy seq w k ws < t

/-- Position `j` is covered by a flagged full window ending by
position `m` (i.e. among the windows processed in the first `m` loop
iterations). -/
def coveredUpTo (seq : List Nat) (w k : Nat) (t : ℝ) (m j : Nat) : Prop :=
  ∃ ws, ws + w ≤ m ∧ ws ≤ j ∧ j < ws + w ∧ flagged seq w k t ws

lemma hashStep_skip (seq : List Nat) (w : Nat) (t : ℝ) (k : Nat) (st : HState) (i : Nat)
    (hi : i + 1 < w) : hashStep seq w t k st i = st := by
  unfold hashStep
  rw [if_neg (show ¬w ≤ i + 1 by omega)]
  rw [if_pos (by omega)]

lemma hashStep_prime (seq : List Nat) (w : Nat) (t : ℝ) (k : Nat) (st : HState)
    (hfirst : st.first = true) (hk : 1 ≤ k) (hkw : k < w) :
    hashStep seq w t k st (w - 1) =
      if windowEntropy seq w k 0 < t then
        ⟨kmerCountF seq k 0 (w - k + 1), false, paint 78 0 w st.ms, paint 35 0 w st.mq⟩
      else ⟨kmerCountF seq k 0 (w - k + 1), false, st.ms, st.mq⟩ := by
  unfold hashStep
  rw [show w - 1 + 1 = w from by omega]
  rw [if_pos (show w ≤ w from le_refl w)]
  rw [Nat.sub_self]
  rw [if_neg (show ¬(w - 0 < w) from by omega)]
  rw [hfirst]
  rw [if_pos (show true = true from rfl)]
  rw [Nat.sub_zero]
  rw [foldl_hmAdd_range' seq k (w - k + 1) 0 (fun _ => 0)]
  have hc : (fun c => (fun _ => (0 : Nat)) c + kmerCountF seq k 0 (w - k + 1) c)
      = kmerCountF seq k 0 (w - k + 1) := by
    funext c; simp
  rw [hc]
  rw [if_pos (show k ≤ w from by omega)]
  rfl

lemma hashStep_slide (seq : List Nat) (w : Nat) (t : ℝ) (k : Nat) (st : HState) (i : Nat)
    (hfirst : st.first = false)
    (hcounts : st.counts = kmerCountF seq k (i - w) (w - k + 1))
    (hk : 1 ≤ k) (hkw : k < w) (hi : w ≤ i) (hiL : i < seq.length) :
    hashStep seq w t k st i =
      if windowEntropy seq w k (i + 1 - w) < t then
        ⟨kmerCountF seq k (i + 1 - w) (w - k + 1), false,
          paint 78 (i + 1 - w) (i + 1) st.ms, paint 35 (i + 1 - w) (i + 1) st.mq⟩
      else ⟨kmerCountF seq k (i + 1 - w) (w - k + 1), false, st.ms, st.mq⟩ := by
  unfold hashStep
  rw [if_pos (show w ≤ i + 1 from by omega)]
  rw [if_neg (show ¬(i + 1 - (i + 1 - w) < w) from by omega)]
  rw [hfirst]
  rw [if_neg (show ¬(false = true) from by simp)]
  rw [if_pos (show i + 1 - w - 1 + k ≤ seq.length from by omega)]
  rw [if_pos (show i + 1 - k < seq.length ∧ i + 1 - k + k ≤ seq.length from by
    constructor <;> omega)]
  rw [show i + 1 - w - 1 = i - w from by omega]
  rw [hcounts]
  rw [hmRemove_shift seq k (i - w) (w - k)]
  have hadd : hmAdd (kmerCountF seq k (i - w + 1) (w - k)) (slice seq (i + 1 - k) k)
      = kmerCountF seq k (i + 1 - w) (w - k + 1) := by
    have h1 := kmerCountF_succ seq k (i - w + 1) (w - k)
    rw [show i - w + 1 + (w - k) = i + 1 - k from by omega] at h1
    rw [show i + 1 - w = i - w + 1 from by omega]
    exact h1.symm
  rw [hadd]
  rw [if_pos (show k ≤ w from by omega)]
  rfl

/-- The state of the `mask_sequence` loop after its first `m` iterations. -/
noncomputable def hashFold (seq qual : List Nat) (w : Nat) (t : ℝ) (k : Nat) (m : Nat) :
    HState :=
  (List.range m).foldl (hashStep seq w t k) ⟨fun _ => 0, true, seq, qual⟩

lemma hashFold_succ (seq qual : List Nat) (w : Nat) (t : ℝ) (k : Nat) (m : Nat) :
    hashFold seq qual w t k (m + 1) = hashStep seq w t k (hashFold seq qual w t k m) m := by
  unfold hashFold
  rw [List.range_succ, List.foldl_append]
  rfl

lemma hashLoop_warmup (seq qual : List Nat) (w : Nat) (t : ℝ) (k : Nat) (m : Nat)
    (hm : m < w) : hashFold seq qual w t k m = ⟨fun _ => 0, true, seq, qual⟩ :=
  foldl_fixed _ _ _ fun st i hi => hashStep_skip seq w t k st i
    (by have := List.mem_range.mp hi; omega)

lemma coveredUpTo_base (seq : List Nat) (w k : Nat) (t : ℝ) (j : Nat) :
    coveredUpTo seq w k t w j ↔ (flagged seq w k t 0 ∧ j < w) := by
  constructor
  · rintro ⟨ws, h1, h2, h3, h4⟩
    have : ws = 0 := by omega
    subst this
    exact ⟨h4, by omega⟩
  · rintro ⟨hf, hj⟩
    exact ⟨0, by omega, by omega, by omega, hf⟩

lemma coveredUpTo_succ (seq : List Nat) (w k : Nat) (t : ℝ) (m j : Nat) (hm : w ≤ m + 1) :
    coveredUpTo seq w k t (m + 1) j
      ↔ coveredUpTo seq w k t m j
        ∨ (m + 1 - w ≤ j ∧ j < m + 1 ∧ flagged seq w k t (m + 1 - w)) := by
  constructor
  · rintro ⟨ws, h1, h2, h3, h4⟩
    rcases Nat.lt_or_ge (ws + w) (m + 1) with h5 | h5
    · exact Or.inl ⟨ws, by omega, h2, h3, h4⟩
    · have : ws = m + 1 - w := by omega
      subst this
      exact Or.inr ⟨by omega, by omega, h4⟩
  · rintro (⟨ws, h1, h2, h3, h4⟩ | ⟨h1, h2, h3⟩)
    · exact ⟨ws, by omega, h2, h3, h4⟩
    · exact ⟨m + 1 - w, by omega, h1, by omega, h3⟩

lemma hashFold_pred (seq qual : List Nat) (w : Nat) (t : ℝ) (k : Nat) (m : Nat)
    (hm : 1 ≤ m) :
    hashFold seq qual w t k m = hashStep seq w t k (hashFold seq qual w t k (m - 1)) (m - 1) := by
  obtain ⟨n, rfl⟩ : ∃ n, m = n + 1 := ⟨m - 1, by omega⟩
  simp [hashFold_succ]

lemma hashFold_w (seq qual : List Nat) (w : Nat) (t : ℝ) (k : Nat)
    (hk : 1 ≤ k) (hkw : k < w) :
    hashFold seq qual w t k w =
      if windowEntropy seq w k 0 < t then
        ⟨kmerCountF seq k 0 (w - k + 1), false, paint 78 0 w seq, paint 35 0 w qual⟩
      else ⟨kmerCountF seq k 0 (w - k + 1), false, seq, qual⟩ := by
  rw [hashFold_pred seq qual w t k w (by omega),
    hashLoop_warmup seq qual w t k (w - 1) (by omega)]
  rw [hashStep_prime seq w t k ⟨fun _ => 0, true, seq, qual⟩ rfl hk hkw]

lemma hashLoop_char (seq qual : List Nat) (w : Nat) (t : ℝ) (k : Nat)
    (hq : qual.length = seq.length) (hk : 1 ≤ k) (hkw : k < w) :
    ∀ m, w ≤ m → m ≤ seq.length →
      (hashFold seq qual w t k m).first = false ∧
      (hashFold seq qual w t k m).counts = kmerCountF seq k (m - w) (w - k + 1) ∧
      (hashFold seq qual w t k m).ms.length = seq.length ∧
      (hashFold seq qual w t k m).mq.length = seq.length ∧
      ∀ j,
        (hashFold seq qual w t k m).ms.getD j 0
          = (if coveredUpTo seq w k t m j then 78 else seq.getD j 0) ∧
        (hashFold seq qual w t k m).mq.getD j 0
          = (if coveredUpTo seq w k t m j then 35 else qual.getD j 0) := by
  intro m
  induction m with
  | zero => intro hwm _; omega
  | succ m ih =>
    intro hwm hmL
    rcases Nat.lt_or_ge m w with hmw | hmw
    · -- the priming iteration: m + 1 = w
      have hm1 : m + 1 = w := by omega
      rw [hm1, hashFold_w seq qual w t k hk hkw, Nat.sub_self]
      by_cases hflag : windowEntropy seq w k 0 < t
      · rw [if_pos hflag]
        refine ⟨rfl, rfl, ?_, ?_, ?_⟩
        · show (paint 78 0 w seq).length = seq.length
          rw [paint_length]
        · show (paint 35 0 w qual).length = seq.length
          rw [paint_length, hq]
        · intro j
          constructor
          · show (paint 78 0 w seq).getD j 0 = _
            rw [paint_getD]
            refine if_congr ?_ rfl rfl
            constructor
            · rintro ⟨h1, h2, h3⟩
              exact (coveredUpTo_base seq w k t j).mpr ⟨hflag, h3⟩
            · intro h
              obtain ⟨hf, hjw⟩ := (coveredUpTo_base seq w k t j).mp h
              exact ⟨by omega, by omega, hjw⟩
          · show (paint 35 0 w qual).getD j 0 = _
            rw [paint_getD]
            refine if_congr ?_ rfl rfl
            constructor
            · rintro ⟨h1, h2, h3⟩
              exact (coveredUpTo_base seq w k t j).mpr ⟨hflag, h3⟩
            · intro h
              obtain ⟨hf, hjw⟩ := (coveredUpTo_base seq w k t j).mp h
              exact ⟨by omega, by omega, hjw⟩
      · rw [if_neg hflag]
        refine ⟨rfl, rfl, rfl, hq, ?_⟩
        intro j
        have hnc : ¬coveredUpTo seq w k t w j := fun h =>
          hflag ((coveredUpTo_base seq w k t j).mp h).1
        rw [if_neg hnc, if_neg hnc]
        exact ⟨rfl, rfl⟩
    · -- a sliding iteration: w ≤ m
      obtain ⟨ihfirst, ihcounts, ihlen1, ihlen2, ihmask⟩ := ih (by omega) (by omega)
      rw [hashFold_succ,
        hashStep_slide seq w t k (hashFold seq qual w t k m) m ihfirst ihcounts hk hkw hmw
          (by omega)]
      by_cases hflag : windowEntropy seq w k (m + 1 - w) < t
      · rw [if_pos hflag]
        refine ⟨rfl, rfl, ?_, ?_, ?_⟩
        · show (paint 78 (m + 1 - w) (m + 1) (hashFold seq qual w t k m).ms).length
            = seq.length
          rw [paint_length, ihlen1]
        · show (paint 35 (m + 1 - w) (m + 1) (hashFold seq qual w t k m).mq).length
            = seq.length
          rw [paint_length, ihlen2]
        · intro j
          obtain ⟨hms, hmq⟩ := ihmask j
          constructor
          · show (paint 78 (m + 1 - w) (m + 1) (hashFold seq qual w t k m).ms).getD j 0 = _
            rw [paint_getD, ihlen1, hms]
            by_cases hc : m + 1 - w ≤ j ∧ j < m + 1
            · have hcov : coveredUpTo seq w k t (m + 1) j :=
                (coveredUpTo_succ seq w k t m j (by omega)).mpr (Or.inr ⟨hc.1, hc.2, hflag⟩)
              rw [if_pos ⟨by omega, hc.1, hc.2⟩, if_pos hcov]
            · rw [if_neg (fun h => hc ⟨h.2.1, h.2.2⟩)]
              refine if_congr ?_ rfl rfl
              rw [coveredUpTo_succ seq w k t m j (by omega)]
              exact ⟨Or.inl, fun h => h.resolve_right fun h2 => hc ⟨h2.1, h2.2.1⟩⟩
          · show (paint 35 (m + 1 - w) (m + 1) (hashFold seq qual w t k m).mq).getD j 0 = _
            rw [paint_getD, ihlen2, hmq]
            by_cases hc : m + 1 - w ≤ j ∧ j < m + 1
            · have hcov : coveredUpTo seq w k t (m + 1) j :=
                (coveredUpTo_succ seq w k t m j (by omega)).mpr (Or.inr ⟨hc.1, hc.2, hflag⟩)
              rw [if_pos ⟨by omega, hc.1, hc.2⟩, if_pos hcov]
            · rw [if_neg (fun h => hc ⟨h.2.1, h.2.2⟩)]
              refine if_congr ?_ rfl rfl
              rw [coveredUpTo_succ seq w k t m j (by omega)]
              exact ⟨Or.inl, fun h => h.resolve_right fun h2 => hc ⟨h2.1, h2.2.1⟩⟩
      · rw [if_neg hflag]
        refine ⟨rfl, rfl, ihlen1, ihlen2, ?_⟩
        intro j
        obtain ⟨hms, hmq⟩ := ihmask j
        have hiff : coveredUpTo seq w k t m j ↔ coveredUpTo seq w k t (m + 1) j := by
          rw [coveredUpTo_succ seq w k t m j (by omega)]
          exact ⟨Or.inl, fun h => h.resolve_right fun h2 => absurd h2.2.2 hflag⟩
        constructor
        · show (hashFold seq qual w t k m).ms.getD j 0 = _
          rw [hms]
          exact if_congr hiff rfl rfl
        · show (hashFold seq qual w t k m).mq.getD j 0 = _
          rw [hmq]
          exact if_congr hiff rfl rfl

/-- The flag decision of the short-read fallback path: entropy of the
whole read as one window, compared against the threshold. -/
noncomputable def shortMask (seq : List Nat) (t : ℝ) (k : Nat) : Prop :=
  shannonEntropy (4 ^ k) (getKmers seq k)
    (if k ≤ seq.length then seq.length - k + 1 else 0) < t

/-- Position `j` gets masked by `mask_sequence`: on the short path, any
position of a flagged whole read; on the long path, any position covered
by a flagged full window. -/
noncomputable def maskedPos (seq : List Nat) (w : Nat) (t : ℝ) (k : Nat) (j : Nat) : Prop :=
  if seq.length < w then shortMask seq t k ∧ j < seq.length
  else coveredUpTo seq w k t seq.length j

lemma maskSequence_short (seq qual : List Nat) (w : Nat) (t : ℝ) (k : Nat)
    (hL : seq.length < w) :
    maskSequence seq qual w t k =
      if shortMask seq t k then (paint 78 0 seq.length seq, paint 35 0 seq.length qual)
      else (seq, qual) := by
  unfold maskSequence shortMask
  rw [if_pos hL]

lemma maskSequence_long (seq qual : List Nat) (w : Nat) (t : ℝ) (k : Nat)
    (hL : ¬seq.length < w) :
    maskSequence seq qual w t k =
      ((hashFold seq qual w t k seq.length).ms, (hashFold seq qual w t k seq.length).mq) := by
  unfold maskSequence hashFold
  rw [if_neg hL]

lemma list_eq_of_getD (l1 l2 : List Nat) (hlen : l1.length = l2.length)
    (h : ∀ j, l1.getD j 0 = l2.getD j 0) : l1 = l2 := by
  apply List.ext_getElem hlen
  intro i h1 h2
  have hi := h i
  rwa [List.getD_eq_getElem l1 0 h1, List.getD_eq_getElem l2 0 h2] at hi

/-- Complete pointwise characterization of `mask_sequence`: lengths are
preserved, masked positions read `('N', '#')`, all others keep the
input bytes. -/
lemma maskSequence_char (seq qual : List Nat) (w : Nat) (t : ℝ) (k : Nat)
    (hq : qual.length = seq.length) (hk : 1 ≤ k) (hkw : k < w) :
    (maskSequence seq qual w t k).1.length = seq.length ∧
    (maskSequence seq qual w t k).2.length = seq.length ∧
    ∀ j,
      (maskSequence seq qual w t k).1.getD j 0
        = (if maskedPos seq w t k j then 78 else seq.getD j 0) ∧
      (maskSequence seq qual w t k).2.getD j 0
        = (if maskedPos seq w t k j then 35 else qual.getD j 0) := by
  by_cases hL : seq.length < w
  · have hmp : ∀ j, maskedPos seq w t k j ↔ (shortMask seq t k ∧ j < seq.length) := by
      intro j
      unfold maskedPos
      rw [if_pos hL]
    rw [maskSequence_short seq qual w t k hL]
    by_cases hf : shortMask seq t k
    · rw [if_pos hf]
      refine ⟨paint_length 78 0 seq.length seq, by rw [paint_length, hq], ?_⟩
      intro j
      constructor
      · rw [paint_getD]
        refine if_congr ?_ rfl rfl
        rw [hmp j]
        exact ⟨fun h => ⟨hf, h.1⟩, fun h => ⟨h.2, by omega, h.2⟩⟩
      · rw [paint_getD]
        refine if_congr ?_ rfl rfl
        rw [hmp j]
        exact ⟨fun h => ⟨hf, by omega⟩, fun h => ⟨by omega, by omega, by omega⟩⟩
    · rw [if_neg hf]
      refine ⟨rfl, hq, ?_⟩
      intro j
      rw [if_neg (fun h => hf ((hmp j).mp h).1), if_neg (fun h => hf ((hmp j).mp h).1)]
      exact ⟨rfl, rfl⟩
  · have hmp : ∀ j, maskedPos seq w t k j ↔ coveredUpTo seq w k t seq.length j := by
      intro j
      unfold maskedPos
      rw [if_neg hL]
    obtain ⟨-, -, hlen1, hlen2, hmask⟩ :=
      hashLoop_char seq qual w t k hq hk hkw seq.length (by omega) (le_refl _)
    rw [maskSequence_long seq qual w t k hL]
    refine ⟨hlen1, hlen2, ?_⟩
    intro j
    obtain ⟨hms, hmq⟩ := hmask j
    rw [hms, hmq]
    exact ⟨if_congr (hmp j).symm rfl rfl, if_congr (hmp j).symm rfl rfl⟩

lemma getKmers_le (seq : List Nat) (k c : Nat) :
    getKmers seq k c ≤ (if k ≤ seq.length then seq.length - k + 1 else 0) := by
  by_cases h : seq.length < k
  · unfold getKmers
    rw [if_pos h, if_neg (by omega)]
  · rw [getKmers_eq seq k (by omega), if_pos (by omega)]
    exact kmerCountF_le seq k 0 (seq.length - k + 1) c

lemma not_shortMask_of_nonpos (seq : List Nat) (k : Nat) (t : ℝ) (ht : t ≤ 0) :
    ¬shortMask seq t k := by
  intro h
  unfold shortMask at h
  exact absurd h (not_lt.mpr (ht.trans (shannon_nonneg _ _ _ fun c _ => getKmers_le seq k c)))

lemma windowEntropy_nonneg (seq : List Nat) (w k ws : Nat) : 0 ≤ windowEntropy seq w k ws :=
  shannon_nonneg _ _ _ fun c _ => kmerCountF_le seq k ws (w - k + 1) c

lemma not_maskedPos_of_nonpos (seq : List Nat) (w k : Nat) (t : ℝ) (j : Nat) (ht : t ≤ 0) :
    ¬maskedPos seq w t k j := by
  unfold maskedPos
  split_ifs with h
  · rintro ⟨hf, -⟩
    exact not_shortMask_of_nonpos seq k t ht hf
  · rintro ⟨ws, -, -, -, hf⟩
    exact absurd hf (not_lt.mpr (ht.trans (windowEntropy_nonneg seq w k ws)))

/-- C9: in the output of `mask_sequence`, every position not covered by
any flagged (below-threshold) window — a full sliding window on the long
path, the whole read on the short path — retains its original sequence
and quality bytes. -/
theorem c9_unflagged_positions_unchanged (seq qual : List Nat) (w : Nat) (t : ℝ) (k : Nat)
    (hq : qual.length = seq.length) (hk : 1 ≤ k) (hkw : k < w) (j : Nat)
    (hnc : ¬maskedPos seq w t k j) :
    (maskSequence seq qual w t k).1.getD j 0 = seq.getD j 0 ∧
    (maskSequence seq qual w t k).2.getD j 0 = qual.getD j 0 := by
  obtain ⟨-, -, hpt⟩ := maskSequence_char seq qual w t k hq hk hkw
  obtain ⟨h1, h2⟩ := hpt j
  rw [h1, h2, if_neg hnc, if_neg hnc]
  exact ⟨rfl, rfl⟩

theorem c9_unflagged_positions_unchanged_witness :
    ¬maskedPos [65] 2 (0 : ℝ) 1 0 ∧
    ((maskSequence [65] [73] 2 (0 : ℝ) 1).1.getD 0 0 = ([65] : List Nat).getD 0 0 ∧
     (maskSequence [65] [73] 2 (0 : ℝ) 1).2.getD 0 0 = ([73] : List Nat).getD 0 0) :=
  ⟨not_maskedPos_of_nonpos [65] 2 1 0 0 (le_refl 0),
    c9_unflagged_positions_unchanged [65] [73] 2 0 1 rfl (by decide) (by decide) 0
      (not_maskedPos_of_nonpos [65] 2 1 0 0 (le_refl 0))⟩

/-- C2 (amended): the `'N'`/`'#'` pairing holds at every position of the
output *provided it holds at that position of the input*: masking always
writes `'N'` and `'#'` together, and all other bytes pass through
unchanged — so an input byte pair violating the pairing (e.g. an `'N'`
base with a real quality score) survives verbatim and falsifies the
unconditional claim. -/
theorem c2_n_hash_pairing (seq qual : List Nat) (w : Nat) (t : ℝ) (k : Nat)
    (hq : qual.length = seq.length) (hk : 1 ≤ k) (hkw : k < w) (j : Nat)
    (hin : seq.getD j 0 = 78 ↔ qual.getD j 0 = 35) :
    ((maskSequence seq qual w t k).1.getD j 0 = 78
      ↔ (maskSequence seq qual w t k).2.getD j 0 = 35) := by
  obtain ⟨-, -, hpt⟩ := maskSequence_char seq qual w t k hq hk hkw
  obtain ⟨h1, h2⟩ := hpt j
  rw [h1, h2]
  by_cases hc : maskedPos seq w t k j
  · rw [if_pos hc, if_pos hc]
    exact iff_of_true rfl rfl
  · rw [if_neg hc, if_neg hc]
    exact hin

theorem c2_n_hash_pairing_witness :
    (([65] : List Nat).getD 0 0 = 78 ↔ ([73] : List Nat).getD 0 0 = 35) ∧
    ((maskSequence [65] [73] 2 (0 : ℝ) 1).1.getD 0 0 = 78
      ↔ (maskSequence [65] [73] 2 (0 : ℝ) 1).2.getD 0 0 = 35) :=
  ⟨by decide, c2_n_hash_pairing [65] [73] 2 0 1 rfl (by decide) (by decide) 0 (by decide)⟩

/-- C2 counterexample: on input sequence `"N"` with quality `"I"` (any
read whose sequence already contains `'N'` at an unmasked position),
`mask_sequence` returns the read unchanged, so the output has
`masked_seq[0] == 'N'` but `masked_qual[0] != '#'`. -/
theorem c2_n_hash_pairing_counterexample :
    (maskSequence [78] [73] 2 (0 : ℝ) 1).1.getD 0 0 = 78 ∧
    ¬(maskSequence [78] [73] 2 (0 : ℝ) 1).2.getD 0 0 = 35 := by
  have h : maskSequence [78] [73] 2 (0 : ℝ) 1 = ([78], [73]) := by
    rw [maskSequence_short [78] [73] 2 0 1 (by decide),
      if_neg (not_shortMask_of_nonpos [78] 1 0 (le_refl 0))]
  rw [h]
  exact ⟨rfl, by decide⟩

/-- C3 (amended): `mask_sequence` only ever masks — every output
position is either the masked pair `('N', '#')` or the untouched input
pair. In particular a second pass never *unmasks* anything; full
idempotence nevertheless fails (see the counterexample), because masking
can lower a window's entropy and make a second pass mask more. -/
theorem c3_mask_or_preserve (seq qual : List Nat) (w : Nat) (t : ℝ) (k : Nat)
    (hq : qual.length = seq.length) (hk : 1 ≤ k) (hkw : k < w) (j : Nat) :
    ((maskSequence seq qual w t k).1.getD j 0 = 78
      ∧ (maskSequence seq qual w t k).2.getD j 0 = 35)
    ∨ ((maskSequence seq qual w t k).1.getD j 0 = seq.getD j 0
      ∧ (maskSequence seq qual w t k).2.getD j 0 = qual.getD j 0) := by
  obtain ⟨-, -, hpt⟩ := maskSequence_char seq qual w t k hq hk hkw
  obtain ⟨h1, h2⟩ := hpt j
  rw [h1, h2]
  by_cases hc : maskedPos seq w t k j
  · left
    rw [if_pos hc, if_pos hc]
    exact ⟨rfl, rfl⟩
  · right
    rw [if_neg hc, if_neg hc]
    exact ⟨rfl, rfl⟩

theorem c3_mask_or_preserve_witness :
    (([73] : List Nat).length = ([65] : List Nat).length) ∧
    (((maskSequence [65] [73] 2 (0 : ℝ) 1).1.getD 0 0 = 78
      ∧ (maskSequence [65] [73] 2 (0 : ℝ) 1).2.getD 0 0 = 35)
    ∨ ((maskSequence [65] [73] 2 (0 : ℝ) 1).1.getD 0 0 = ([65] : List Nat).getD 0 0
      ∧ (maskSequence [65] [73] 2 (0 : ℝ) 1).2.getD 0 0 = ([73] : List Nat).getD 0 0)) :=
  ⟨rfl, c3_mask_or_preserve [65] [73] 2 0 1 rfl (by decide) (by decide) 0⟩

/-- C6: for a read shorter than the window, `mask_sequence` computes the
entropy of the whole read as one window; below threshold it masks every
base (`'N'` / `'#'` throughout), otherwise it returns the input
unchanged. -/
theorem c6_short_read_fallback (seq qual : List Nat) (w : Nat) (t : ℝ) (k : Nat)
    (hq : qual.length = seq.length) (hL : seq.length < w) :
    maskSequence seq qual w t k =
      if shannonEntropy (4 ^ k) (getKmers seq k)
          (if k ≤ seq.length then seq.length - k + 1 else 0) < t
      then (List.replicate seq.length 78, List.replicate seq.length 35)
      else (seq, qual) := by
  rw [maskSequence_short seq qual w t k hL]
  unfold shortMask
  refine if_congr Iff.rfl ?_ rfl
  rw [paint_eq_replicate 78 seq seq.length (le_refl _),
    paint_eq_replicate 35 qual seq.length (by omega), hq]

theorem c6_short_read_fallback_witness :
    (([73] : List Nat).length = ([65] : List Nat).length) ∧
    maskSequence [65] [73] 2 (0 : ℝ) 1 =
      if shannonEntropy (4 ^ 1) (getKmers [65] 1)
          (if 1 ≤ ([65] : List Nat).length then ([65] : List Nat).length - 1 + 1 else 0)
          < (0 : ℝ)
      then (List.replicate ([65] : List Nat).length 78,
            List.replicate ([65] : List Nat).length 35)
      else ([65], [73]) :=
  ⟨rfl, c6_short_read_fallback [65] [73] 2 0 1 rfl (by decide)⟩

lemma shannonEntropy4_eval (m : Nat → Nat) (a b c d : Nat)
    (h0 : m 0 = a) (h1 : m 1 = b) (h2 : m 2 = c) (h3 : m 3 = d) (N : Nat)
    (hN : N ≠ 0) (hlog : 0 < Real.logb 2 (N : ℝ)) :
    shannonEntropy 4 m N
      = -(plogp N a + plogp N b + plogp N c + plogp N d) / Real.logb 2 (N : ℝ) := by
  rw [shannonEntropy_pos_total 4 m N hN hlog]
  congr 1
  rw [Finset.sum_range_succ, Finset.sum_range_succ, Finset.sum_range_succ,
    Finset.sum_range_one, h0, h1, h2, h3]

lemma logb23_pos : 0 < Real.logb 2 3 := Real.logb_pos (by norm_num) (by norm_num)

lemma logb23_ge : (4 : ℝ) / 3 ≤ Real.logb 2 3 := by
  have hlog2 : 0 < Real.log 2 := Real.log_pos (by norm_num)
  have h1 : Real.log 16 ≤ Real.log 27 := Real.log_le_log (by norm_num) (by norm_num)
  have e16 : Real.log 16 = 4 * Real.log 2 := by
    rw [show (16 : ℝ) = 2 ^ (4 : ℕ) by norm_num, Real.log_pow]
    push_cast
    ring
  have e27 : Real.log 27 = 3 * Real.log 3 := by
    rw [show (27 : ℝ) = 3 ^ (3 : ℕ) by norm_num, Real.log_pow]
    push_cast
    ring
  show (4 : ℝ) / 3 ≤ Real.log 3 / Real.log 2
  rw [le_div_iff hlog2]
  linarith

lemma plogp_three_one : plogp 3 1 = -(1 / 3) * Real.logb 2 3 := by
  unfold plogp
  rw [if_neg (by norm_num)]
  push_cast
  rw [one_div, Real.logb_inv]
  ring

lemma plogp_three_two : plogp 3 2 = 2 / 3 * (1 - Real.logb 2 3) := by
  unfold plogp
  rw [if_neg (by norm_num)]
  push_cast
  rw [Real.logb_div (by norm_num) (by norm_num), Real.logb_self_eq_one (by norm_num)]

lemma c3_pass1_w0 : windowEntropy [65, 65, 65, 67, 71] 3 1 0 = 0 := by
  have h := shannonEntropy4_eval (kmerCountF [65, 65, 65, 67, 71] 1 0 3) 3 0 0 0
    (by decide) (by decide) (by decide) (by decide) 3 (by norm_num) logb23_pos
  show shannonEntropy 4 (kmerCountF [65, 65, 65, 67, 71] 1 0 3) 3 = 0
  rw [h, plogp_self 3 (by norm_num), plogp_zero]
  norm_num

lemma c3_pass1_w1 : (1 : ℝ) / 2 ≤ windowEntropy [65, 65, 65, 67, 71] 3 1 1 := by
  have h := shannonEntropy4_eval (kmerCountF [65, 65, 65, 67, 71] 1 1 3) 2 1 0 0
    (by decide) (by decide) (by decide) (by decide) 3 (by norm_num) logb23_pos
  show (1 : ℝ) / 2 ≤ shannonEntropy 4 (kmerCountF [65, 65, 65, 67, 71] 1 1 3) 3
  rw [h, plogp_three_two, plogp_three_one, plogp_zero]
  push_cast
  rw [le_div_iff logb23_pos]
  linarith [logb23_ge]

lemma c3_pass1_w2 : (1 : ℝ) / 2 ≤ windowEntropy [65, 65, 65, 67, 71] 3 1 2 := by
  have h := shannonEntropy4_eval (kmerCountF [65, 65, 65, 67, 71] 1 2 3) 1 1 1 0
    (by decide) (by decide) (by decide) (by decide) 3 (by norm_num) logb23_pos
  show (1 : ℝ) / 2 ≤ shannonEntropy 4 (kmerCountF [65, 65, 65, 67, 71] 1 2 3) 3
  rw [h, plogp_three_one, plogp_zero]
  push_cast
  rw [le_div_iff logb23_pos]
  linarith [logb23_pos]

lemma c3_pass2_w1 : windowEntropy [78, 78, 78, 67, 71] 3 1 1 < (1 : ℝ) / 2 := by
  have h := shannonEntropy4_eval (kmerCountF [78, 78, 78, 67, 71] 1 1 3) 0 1 0 0
    (by decide) (by decide) (by decide) (by decide) 3 (by norm_num) logb23_pos
  show shannonEntropy 4 (kmerCountF [78, 78, 78, 67, 71] 1 1 3) 3 < (1 : ℝ) / 2
  rw [h, plogp_three_one, plogp_zero]
  push_cast
  rw [div_lt_iff logb23_pos]
  linarith [logb23_ge]

lemma c3_pass1_eval :
    maskSequence [65, 65, 65, 67, 71] [73, 73, 73, 73, 73] 3 (1 / 2 : ℝ) 1
      = ([78, 78, 78, 67, 71], [35, 35, 35, 73, 73]) := by
  obtain ⟨hl1, hl2, hpt⟩ :=
    maskSequence_char [65, 65, 65, 67, 71] [73, 73, 73, 73, 73] 3 (1 / 2) 1 rfl
      (by decide) (by decide)
  have hmp : ∀ j, maskedPos [65, 65, 65, 67, 71] 3 (1 / 2 : ℝ) 1 j
      ↔ coveredUpTo [65, 65, 65, 67, 71] 3 1 (1 / 2) 5 j := by
    intro j
    unfold maskedPos
    rw [if_neg (by decide)]
    exact Iff.rfl
  have hflag0 : flagged [65, 65, 65, 67, 71] 3 1 (1 / 2 : ℝ) 0 := by
    show windowEntropy [65, 65, 65, 67, 71] 3 1 0 < (1 : ℝ) / 2
    rw [c3_pass1_w0]
    norm_num
  have hcov : ∀ j, j < 3 → coveredUpTo [65, 65, 65, 67, 71] 3 1 (1 / 2 : ℝ) 5 j :=
    fun j hj => ⟨0, by omega, by omega, by omega, hflag0⟩
  have hncov : ∀ j, 3 ≤ j → ¬coveredUpTo [65, 65, 65, 67, 71] 3 1 (1 / 2 : ℝ) 5 j := by
    rintro j hj ⟨ws, h1, h2, h3, hf⟩
    have hws : ws = 1 ∨ ws = 2 := by omega
    rcases hws with rfl | rfl
    · exact absurd hf (not_lt.mpr c3_pass1_w1)
    · exact absurd hf (not_lt.mpr c3_pass1_w2)
  refine Prod.ext ?_ ?_
  · refine list_eq_of_getD _ _ (by rw [hl1]; rfl) ?_
    intro j
    rw [(hpt j).1]
    by_cases hj3 : j < 3
    · rw [if_pos ((hmp j).mpr (hcov j hj3))]
      interval_cases j <;> rfl
    · rw [if_neg (fun h => hncov j (by omega) ((hmp j).mp h))]
      by_cases hj5 : j < 5
      · interval_cases j <;> rfl
      · rw [List.getD_eq_default _ _ (by simp; omega), List.getD_eq_default _ _ (by simp; omega)]
  · refine list_eq_of_getD _ _ (by rw [hl2]; rfl) ?_
    intro j
    rw [(hpt j).2]
    by_cases hj3 : j < 3
    · rw [if_pos ((hmp j).mpr (hcov j hj3))]
      interval_cases j <;> rfl
    · rw [if_neg (fun h => hncov j (by omega) ((hmp j).mp h))]
      by_cases hj5 : j < 5
      · interval_cases j <;> rfl
      · rw [List.getD_eq_default _ _ (by simp; omega), List.getD_eq_default _ _ (by simp; omega)]

/-- C3 counterexample: masking is *not* idempotent.  On the read
`"AAACG"` with window 3, k = 1, threshold 1/2, the first pass masks the
`AAA` prefix; in the second pass the window `NNC` (two invalid bases
plus one `C`) has entropy 1/3 < 1/2, so position 3 (`C`) gets masked as
well, and `mask(mask(R, C), C) ≠ mask(R, C)`. -/
theorem c3_idempotence_counterexample :
    maskSequence (maskSequence [65, 65, 65, 67, 71] [73, 73, 73, 73, 73] 3 (1 / 2 : ℝ) 1).1
        (maskSequence [65, 65, 65, 67, 71] [73, 73, 73, 73, 73] 3 (1 / 2 : ℝ) 1).2 3
        (1 / 2 : ℝ) 1
      ≠ maskSequence [65, 65, 65, 67, 71] [73, 73, 73, 73, 73] 3 (1 / 2 : ℝ) 1 := by
  rw [c3_pass1_eval]
  show maskSequence [78, 78, 78, 67, 71] [35, 35, 35, 73, 73] 3 (1 / 2 : ℝ) 1
    ≠ ([78, 78, 78, 67, 71], [35, 35, 35, 73, 73])
  intro hEq
  have h78 : (maskSequence [78, 78, 78, 67, 71] [35, 35, 35, 73, 73] 3 (1 / 2 : ℝ) 1).1.getD
      3 0 = 78 := by
    obtain ⟨-, -, hpt⟩ :=
      maskSequence_char [78, 78, 78, 67, 71] [35, 35, 35, 73, 73] 3 (1 / 2) 1 rfl
        (by decide) (by decide)
    have hmp3 : maskedPos [78, 78, 78, 67, 71] 3 (1 / 2 : ℝ) 1 3 := by
      unfold maskedPos
      rw [if_neg (by decide)]
      exact ⟨1, by decide, by decide, by decide, c3_pass2_w1⟩
    rw [(hpt 3).1, if_pos hmp3]
  rw [hEq] at h78
  exact absurd h78 (by decide)

/-- The state of the `mask_sequence_array` loop after its first `m`
iterations (`none` once any tracker operation has failed). -/
noncomputable def arrayFold (seq qual : List Nat) (w : Nat) (t : ℝ) (k : Nat) (m : Nat) :
    Option AState :=
  (List.range m).foldlM (arrayStep seq w t k) ⟨freshTracker k w, true, seq, qual⟩

lemma arrayFold_succ (seq qual : List Nat) (w : Nat) (t : ℝ) (k : Nat) (m : Nat) :
    arrayFold seq qual w t k (m + 1)
      = (arrayFold seq qual w t k m).bind (fun st => arrayStep seq w t k st m) := by
  unfold arrayFold
  rw [List.range_succ, List.foldlM_append]
  cases (List.range m).foldlM (arrayStep seq w t k) ⟨freshTracker k w, true, seq, qual⟩ with
  | none => rfl
  | some st => simp

lemma arrayStep_skip (seq : List Nat) (w : Nat) (t : ℝ) (k : Nat) (st : AState) (i : Nat)
    (hi : i + 1 < w) : arrayStep seq w t k st i = some st := by
  unfold arrayStep
  rw [if_neg (show ¬w ≤ i + 1 by omega)]
  rw [if_pos (by omega)]

lemma arrayFold_warmup (seq qual : List Nat) (w : Nat) (t : ℝ) (k : Nat) : ∀ m, m < w →
    arrayFold seq qual w t k m = some ⟨freshTracker k w, true, seq, qual⟩ := by
  intro m
  induction m with
  | zero => intro _; rfl
  | succ m ih =>
    intro hm
    rw [arrayFold_succ, ih (by omega)]
    show arrayStep seq w t k ⟨freshTracker k w, true, seq, qual⟩ m = _
    exact arrayStep_skip seq w t k _ m (by omega)

lemma count_filterMap_eq (enc : Nat → Option Nat) (l : List Nat) (c : Nat) :
    (l.filterMap enc).count c = l.countP (fun j => enc j == some c) := by
  induction l with
  | nil => rfl
  | cons j l ih =>
    rw [List.filterMap_cons, List.countP_cons]
    cases hj : enc j with
    | none => simp [hj, ih]
    | some c0 =>
      rw [List.count_cons, ih]
      simp only [hj, beq_iff_eq, Option.some_inj]

lemma kmerCountF_head_none (seq : List Nat) (k lo n : Nat)
    (h : encodeKmer (slice seq lo k) = none) :
    kmerCountF seq k lo (n + 1) = kmerCountF seq k (lo + 1) n := by
  funext c
  rw [kmerCountF_cons]
  simp [h]

lemma kmerCountF_tail_none (seq : List Nat) (k lo n : Nat)
    (h : encodeKmer (slice seq (lo + n) k) = none) :
    kmerCountF seq k lo (n + 1) = kmerCountF seq k lo n := by
  rw [kmerCountF_succ]
  unfold hmAdd
  rw [h]

lemma occ_kmerCountF_le (seq : List Nat) (k lo n : Nat) :
    occ (4 ^ k) (kmerCountF seq k lo n) ≤ n := by
  unfold occ
  exact sum_kmerCountF_le seq k lo n

lemma arrayStep_prime (seq : List Nat) (w : Nat) (t : ℝ) (k : Nat) (st : AState)
    (hfirst : st.first = true) (hk : 1 ≤ k) (hkw : k < w) :
    arrayStep seq w t k st (w - 1) =
      ((List.range' 0 (w - k + 1)).foldlM
          (fun (tt : Tracker) (j : Nat) =>
            match encodeKmer (slice seq j k) with
            | some c => tt.addKmer c
            | none => pure tt)
          st.tr.clear).bind
        (fun tr =>
          if tr.entropy < t then
            some ⟨tr, false, paint 78 0 w st.ms, paint 35 0 w st.mq⟩
          else some ⟨tr, false, st.ms, st.mq⟩) := by
  unfold arrayStep
  rw [show w - 1 + 1 = w from by omega]
  rw [if_pos (show w ≤ w from le_refl w)]
  rw [Nat.sub_self]
  rw [if_neg (show ¬(w - 0 < w) from by omega)]
  rw [hfirst]
  rw [if_pos (show true = true from rfl)]
  rw [Nat.sub_zero]
  rfl

lemma arrayStep_slide (seq : List Nat) (w : Nat) (t : ℝ) (k : Nat) (st : AState) (i : Nat)
    (hfirst : st.first = false)
    (hcounts : st.tr.counts = kmerCountF seq k (i - w) (w - k + 1))
    (hT : TrackOk (w - k + 1) k st.tr) (hH : HistOk (w - k + 1) k st.tr)
    (hN : w - k + 1 ≤ 65535)
    (hk : 1 ≤ k) (hkw : k < w) (hi : w ≤ i) (hiL : i < seq.length) :
    ∃ tr2, arrayStep seq w t k st i
        = some (if windowEntropy seq w k (i + 1 - w) < t then
            (⟨tr2, false, paint 78 (i + 1 - w) (i + 1) st.ms,
              paint 35 (i + 1 - w) (i + 1) st.mq⟩ : AState)
          else ⟨tr2, false, st.ms, st.mq⟩)
      ∧ tr2.counts = kmerCountF seq k (i + 1 - w) (w - k + 1)
      ∧ TrackOk (w - k + 1) k tr2 ∧ HistOk (w - k + 1) k tr2 := by
  have hremTotal : ∃ t1, (if i - w + k ≤ seq.length then
        match encodeKmer (slice seq (i - w) k) with
        | some c => st.tr.removeKmer c
        | none => pure st.tr
      else pure st.tr) = some t1
      ∧ t1.counts = kmerCountF seq k (i - w + 1) (w - k)
      ∧ TrackOk (w - k + 1) k t1 ∧ HistOk (w - k + 1) k t1 := by
    rw [if_pos (show i - w + k ≤ seq.length from by omega)]
    cases hrem : encodeKmer (slice seq (i - w) k) with
    | none =>
      refine ⟨st.tr, rfl, ?_, hT, hH⟩
      rw [hcounts]
      exact kmerCountF_head_none seq k (i - w) (w - k) hrem
    | some c =>
      obtain ⟨t1, h1, hc1, hT1, hH1, -⟩ :=
        removeKmer_spec (w - k + 1) k st.tr c hT hH (encodeKmer_slice_lt seq (i - w) k c hrem)
          (by rw [hcounts]; exact occ_kmerCountF_le seq k (i - w) (w - k + 1)) hN
      refine ⟨t1, h1, ?_, hT1, hH1⟩
      rw [hc1, hcounts]
      have hrw : hmRemove (kmerCountF seq k (i - w) (w - k + 1)) (slice seq (i - w) k)
          = (if kmerCountF seq k (i - w) (w - k + 1) c = 0 then
              kmerCountF seq k (i - w) (w - k + 1)
            else Function.update (kmerCountF seq k (i - w) (w - k + 1)) c
              (kmerCountF seq k (i - w) (w - k + 1) c - 1)) := by
        unfold hmRemove
        rw [hrem]
      rw [← hrw]
      exact hmRemove_shift seq k (i - w) (w - k)
  obtain ⟨t1, hrem1, hc1, hT1, hH1⟩ := hremTotal
  have haddTotal : ∃ tr2, (match encodeKmer (slice seq (i + 1 - k) k) with
        | some c => t1.addKmer c
        | none => pure t1) = some tr2
      ∧ tr2.counts = kmerCountF seq k (i + 1 - w) (w - k + 1)
      ∧ TrackOk (w - k + 1) k tr2 ∧ HistOk (w - k + 1) k tr2 := by
    have hlo : i - w + 1 = i + 1 - w := by omega
    have hlon : (i + 1 - w) + (w - k) = i + 1 - k := by omega
    cases hadd : encodeKmer (slice seq (i + 1 - k) k) with
    | none =>
      refine ⟨t1, rfl, ?_, hT1, hH1⟩
      rw [hc1, hlo]
      exact (kmerCountF_tail_none seq k (i + 1 - w) (w - k) (by rw [hlon]; exact hadd)).symm
    | some c =>
      obtain ⟨tr2, h2, hc2, hT2, hH2, -⟩ :=
        addKmer_spec (w - k + 1) k t1 c hT1 hH1 (encodeKmer_slice_lt seq (i + 1 - k) k c hadd)
          (by rw [hc1]
              have := occ_kmerCountF_le seq k (i - w + 1) (w - k)
              omega) hN
      refine ⟨tr2, h2, ?_, hT2, hH2⟩
      rw [hc2, hc1, hlo]
      have hrw : hmAdd (kmerCountF seq k (i + 1 - w) (w - k)) (slice seq (i + 1 - k) k)
          = Function.update (kmerCountF seq k (i + 1 - w) (w - k)) c
              (kmerCountF seq k (i + 1 - w) (w - k) c + 1) := by
        unfold hmAdd
        rw [hadd]
      rw [← hrw, ← hlon]
      exact (kmerCountF_succ seq k (i + 1 - w) (w - k)).symm
  obtain ⟨tr2, hadd1, hc2, hT2, hH2⟩ := haddTotal
  have hle2 : ∀ c, tr2.counts c ≤ w - k + 1 := by
    intro c
    rw [hc2]
    exact kmerCountF_le seq k (i + 1 - w) (w - k + 1) c
  have hent : tr2.entropy = windowEntropy seq w k (i + 1 - w) := by
    rw [tracker_entropy_eq (w - k + 1) k tr2 hT2 (by omega) hle2, hc2]
    rfl
  refine ⟨tr2, ?_, hc2, hT2, hH2⟩
  unfold arrayStep
  rw [if_pos (show w ≤ i + 1 from by omega)]
  rw [if_neg (show ¬(i + 1 - (i + 1 - w) < w) from by omega)]
  rw [hfirst]
  rw [if_neg (show ¬(false = true) from by simp)]
  rw [show i + 1 - w - 1 = i - w from by omega]
  rw [hrem1]
  simp only [Option.bind_eq_bind, Option.some_bind]
  rw [if_pos (show i + 1 - k < seq.length ∧ i + 1 - k + k ≤ seq.length from by
    constructor <;> omega)]
  rw [hadd1]
  simp only [Option.bind_eq_bind, Option.some_bind]
  rw [hent]
  by_cases hflag : windowEntropy seq w k (i + 1 - w) < t
  · rw [if_pos hflag, if_pos hflag]
    rfl
  · rw [if_neg hflag, if_neg hflag]
    rfl

lemma arrayFold_pred (seq qual : List Nat) (w : Nat) (t : ℝ) (k : Nat) (m : Nat)
    (hm : 1 ≤ m) :
    arrayFold seq qual w t k m
      = (arrayFold seq qual w t k (m - 1)).bind
          (fun st => arrayStep seq w t k st (m - 1)) := by
  obtain ⟨n, rfl⟩ : ∃ n, m = n + 1 := ⟨m - 1, by omega⟩
  simp [arrayFold_succ]

/-- Simulation of the dense tracker loop by the HashMap loop: as long as
the `u16` histogram initialization was exact (`w − k + 1 ≤ 65535`), every
iteration succeeds and produces the same flag decisions and output
buffers as `mask_sequence`, with the tracker counts equal to the map. -/
lemma arraySim (seq qual : List Nat) (w : Nat) (t : ℝ) (k : Nat)
    (hq : qual.length = seq.length) (hk : 1 ≤ k) (hkw : k < w)
    (hN : w - k + 1 ≤ 65535) :
    ∀ m, w ≤ m → m ≤ seq.length →
    ∃ tr, arrayFold seq qual w t k m
        = some ⟨tr, (hashFold seq qual w t k m).first, (hashFold seq qual w t k m).ms,
                  (hashFold seq qual w t k m).mq⟩
      ∧ tr.counts = (hashFold seq qual w t k m).counts
      ∧ TrackOk (w - k + 1) k tr ∧ HistOk (w - k + 1) k tr := by
  intro m
  induction m with
  | zero => intro h1 _; omega
  | succ m ih =>
    intro hwm hmL
    rcases Nat.lt_or_ge m w with hmw | hmw
    · -- priming iteration: m + 1 = w
      have hm1 : m + 1 = w := by omega
      rw [hm1, hashFold_w seq qual w t k hk hkw]
      obtain ⟨t2, hfold, hT2, hH2, hc2, -⟩ :=
        applyAdds_spec (w - k + 1) k
          ((List.range' 0 (w - k + 1)).filterMap (fun j => encodeKmer (slice seq j k)))
          (freshTracker k w) (trackOk_fresh _ k w rfl) (histOk_fresh _ k w rfl hN)
          (by
            have h1 : ((List.range' 0 (w - k + 1)).filterMap
                (fun j => encodeKmer (slice seq j k))).length ≤ w - k + 1 := by
              have h2 := List.length_filterMap_le
                (fun j => encodeKmer (slice seq j k)) (List.range' 0 (w - k + 1))
              simpa using h2
            have h3 : occ (4 ^ k) (freshTracker k w).counts = 0 := by
              simp [occ, freshTracker]
            omega)
          (by
            intro c hc
            obtain ⟨j, -, hj⟩ := List.mem_filterMap.mp hc
            exact encodeKmer_slice_lt seq j k c hj) hN
      unfold applyAdds at hfold
      have hcc : t2.counts = kmerCountF seq k 0 (w - k + 1) := by
        rw [hc2]
        funext c
        rw [count_filterMap_eq]
        simp [freshTracker, kmerCountF]
      have hle : ∀ c, t2.counts c ≤ w - k + 1 := by
        intro c
        rw [hcc]
        exact kmerCountF_le seq k 0 (w - k + 1) c
      have hent : t2.entropy = windowEntropy seq w k 0 := by
        rw [tracker_entropy_eq (w - k + 1) k t2 hT2 (by omega) hle, hcc]
        rfl
      have harr : arrayFold seq qual w t k w
          = some (if windowEntropy seq w k 0 < t then
              (⟨t2, false, paint 78 0 w seq, paint 35 0 w qual⟩ : AState)
            else ⟨t2, false, seq, qual⟩) := by
        rw [arrayFold_pred seq qual w t k w (by omega),
          arrayFold_warmup seq qual w t k (w - 1) (by omega)]
        simp only [Option.some_bind]
        rw [arrayStep_prime seq w t k ⟨freshTracker k w, true, seq, qual⟩ rfl hk hkw]
        rw [show (⟨freshTracker k w, true, seq, qual⟩ : AState).tr.clear
            = freshTracker k w from rfl]
        rw [foldlM_match_filterMap (fun j => encodeKmer (slice seq j k)) Tracker.addKmer
          (List.range' 0 (w - k + 1)) (freshTracker k w)]
        rw [hfold]
        simp only [Option.some_bind]
        rw [hent]
        by_cases hflag : windowEntropy seq w k 0 < t
        · rw [if_pos hflag, if_pos hflag]
        · rw [if_neg hflag, if_neg hflag]
      by_cases hflag : windowEntropy seq w k 0 < t
      · rw [if_pos hflag] at harr ⊢
        exact ⟨t2, harr, hcc, hT2, hH2⟩
      · rw [if_neg hflag] at harr ⊢
        exact ⟨t2, harr, hcc, hT2, hH2⟩
    · -- sliding iteration: w ≤ m
      obtain ⟨tr, hfold, hcounts, hT, hH⟩ := ih (by omega) (by omega)
      obtain ⟨hhfirst, hhcounts, -, -, -⟩ :=
        hashLoop_char seq qual w t k hq hk hkw m (by omega) (by omega)
      obtain ⟨tr2, hstep, hc2, hT2, hH2⟩ :=
        arrayStep_slide seq w t k
          ⟨tr, (hashFold seq qual w t k m).first, (hashFold seq qual w t k m).ms,
            (hashFold seq qual w t k m).mq⟩ m hhfirst
          (by
            show tr.counts = kmerCountF seq k (m - w) (w - k + 1)
            rw [hcounts, hhcounts]) hT hH hN hk hkw hmw (by omega)
      refine ⟨tr2, ?_, ?_, hT2, hH2⟩
      · rw [arrayFold_succ, hfold]
        simp only [Option.some_bind]
        rw [hstep]
        rw [hashFold_succ,
          hashStep_slide seq w t k (hashFold seq qual w t k m) m hhfirst hhcounts hk hkw hmw
            (by omega)]
        by_cases hflag : windowEntropy seq w k (m + 1 - w) < t
        · rw [if_pos hflag, if_pos hflag]
        · rw [if_neg hflag, if_neg hflag]
      · rw [hashFold_succ,
          hashStep_slide seq w t k (hashFold seq qual w t k m) m hhfirst hhcounts hk hkw hmw
            (by omega)]
        by_cases hflag : windowEntropy seq w k (m + 1 - w) < t
        · rw [if_pos hflag]
          exact hc2
        · rw [if_neg hflag]
          exact hc2

lemma maskSequenceArray_eq (seq qual : List Nat) (w : Nat) (t : ℝ) (k : Nat)
    (hq : qual.length = seq.length) (hk : 1 ≤ k) (hk15 : k ≤ 15) (hkw : k < w)
    (hN : w - k + 1 ≤ 65535) :
    maskSequenceArray seq qual w t k = some (maskSequence seq qual w t k) := by
  by_cases hL : seq.length < w
  · rw [maskSequence_short seq qual w t k hL]
    unfold maskSequenceArray
    rw [if_pos hL]
    show (if shannonEntropy (4 ^ k) (getKmers seq k)
          (if k ≤ seq.length then seq.length - k + 1 else 0) < t then
        some (paint 78 0 seq.length seq, paint 35 0 seq.length qual)
      else some (seq, qual))
      = some (if shortMask seq t k then
          (paint 78 0 seq.length seq, paint 35 0 seq.length qual)
        else (seq, qual))
    by_cases hf : shortMask seq t k
    · rw [if_pos hf, if_pos (show shannonEntropy (4 ^ k) (getKmers seq k)
        (if k ≤ seq.length then seq.length - k + 1 else 0) < t from hf)]
    · rw [if_neg hf, if_neg (show ¬shannonEntropy (4 ^ k) (getKmers seq k)
        (if k ≤ seq.length then seq.length - k + 1 else 0) < t from hf)]
  · obtain ⟨tr, hfoldEq, -, -, -⟩ :=
      arraySim seq qual w t k hq hk hkw hN seq.length (by omega) (le_refl _)
    rw [maskSequence_long seq qual w t k hL]
    unfold maskSequenceArray
    rw [if_neg hL]
    rw [show newTracker k w = some (freshTracker k w) from by
      unfold newTracker
      rw [if_pos ⟨hk, hk15, hkw⟩]]
    unfold arrayFold at hfoldEq
    simp only [Option.bind_eq_bind, Option.some_bind]
    rw [hfoldEq]
    simp only [Option.some_bind]
    rfl

/-- C1 (amended): for `1 ≤ k ≤ 7` and `k < W`, the dense array-backed
masker and the sparse HashMap-backed masker return byte-identical pairs
*provided* `W − k + 1 ≤ 65535`: the dense tracker stores
`window_kmers as u16` into its histogram, so for larger windows the
truncated histogram makes the checked tracker operations fail (see the
counterexample) while the HashMap backend still returns a pair. -/
theorem c1_backend_equivalence (seq qual : List Nat) (w : Nat) (t : ℝ) (k : Nat)
    (hq : qual.length = seq.length) (hk : 1 ≤ k) (hk7 : k ≤ 7) (hkw : k < w)
    (hN : w - k + 1 ≤ 65535) :
    maskSequenceArray seq qual w t k = some (maskSequence seq qual w t k) :=
  maskSequenceArray_eq seq qual w t k hq hk (by omega) hkw hN

theorem c1_backend_equivalence_witness :
    (([73] : List Nat).length = ([65] : List Nat).length) ∧
    maskSequenceArray [65] [73] 2 (0 : ℝ) 1 = some (maskSequence [65] [73] 2 (0 : ℝ) 1) :=
  ⟨rfl, c1_backend_equivalence [65] [73] 2 0 1 rfl (by decide) (by decide) (by decide)
    (by decide)⟩

/-- C4 (amended): for equal-length inputs with `1 ≤ k`, `W > k` *and*
`W − k + 1 ≤ 65535`, none of the three core routines panics and each
returns a masked pair of unchanged lengths: `mask_sequence` always,
`mask_sequence_array` for every `k ≤ 15` (the dense tracker's supported
maximum, per its assert), and `mask_sequence_auto` always.  Without the
`W − k + 1 ≤ 65535` bound the claim is false: the `u16` truncation
`window_kmers as u16` in the tracker's histogram makes the dense
backend hit its histogram-underflow guard (see the counterexample). -/
theorem c4_no_panic (seq qual : List Nat) (w : Nat) (t : ℝ) (k : Nat)
    (hq : qual.length = seq.length) (hk : 1 ≤ k) (hkw : k < w)
    (hN : w - k + 1 ≤ 65535) :
    ((maskSequence seq qual w t k).1.length = seq.length
      ∧ (maskSequence seq qual w t k).2.length = seq.length)
    ∧ (k ≤ 15 →
        ∃ p, maskSequenceArray seq qual w t k = some p
          ∧ p.1.length = seq.length ∧ p.2.length = seq.length)
    ∧ ∃ p, maskSequenceAuto seq qual w t k = some p
        ∧ p.1.length = seq.length ∧ p.2.length = seq.length := by
  obtain ⟨hl1, hl2, -⟩ := maskSequence_char seq qual w t k hq hk hkw
  refine ⟨⟨hl1, hl2⟩, ?_, ?_⟩
  · intro h15
    exact ⟨maskSequence seq qual w t k,
      maskSequenceArray_eq seq qual w t k hq hk h15 hkw hN, hl1, hl2⟩
  · unfold maskSequenceAuto
    by_cases h7 : k ≤ 7
    · rw [if_pos h7]
      exact ⟨maskSequence seq qual w t k,
        maskSequenceArray_eq seq qual w t k hq hk (by omega) hkw hN, hl1, hl2⟩
    · rw [if_neg h7]
      exact ⟨maskSequence seq qual w t k, rfl, hl1, hl2⟩

theorem c4_no_panic_witness :
    (([73] : List Nat).length = ([65] : List Nat).length) ∧
    ((((maskSequence [65] [73] 2 (0 : ℝ) 1).1.length = ([65] : List Nat).length
      ∧ (maskSequence [65] [73] 2 (0 : ℝ) 1).2.length = ([65] : List Nat).length))
    ∧ ((1 : Nat) ≤ 15 →
        ∃ p, maskSequenceArray [65] [73] 2 (0 : ℝ) 1 = some p
          ∧ p.1.length = ([65] : List Nat).length ∧ p.2.length = ([65] : List Nat).length)
    ∧ ∃ p, maskSequenceAuto [65] [73] 2 (0 : ℝ) 1 = some p
        ∧ p.1.length = ([65] : List Nat).length ∧ p.2.length = ([65] : List Nat).length) :=
  ⟨rfl, c4_no_panic [65] [73] 2 0 1 rfl (by decide) (by decide) (by decide)⟩

lemma bigAdd_none : (freshTracker 1 65536).addKmer 0 = none := by
  simp only [Tracker.addKmer]
  split_ifs with h1 h2 h3 h4
  · exfalso
    have hcc : (freshTracker 1 65536).cc ((freshTracker 1 65536).counts 0) = 0 := by
      show (if (0 : ℕ) = 0 then (65536 - 1 + 1) % 65536 else 0) = 0
      norm_num
    rw [hcc] at h4
    exact absurd h4.1 (by norm_num)
  all_goals rfl

lemma bigEnc : encodeKmer (slice (List.replicate 65536 65) 0 1) = some 0 := by
  have hsl : slice (List.replicate 65536 65) 0 1 = [65] := by
    show ((List.replicate 65536 (65 : ℕ)).drop 0).take 1 = [65]
    rw [List.drop_zero, show (65536 : ℕ) = 65535 + 1 from rfl, List.replicate_succ]
    rfl
  rw [hsl]
  decide

lemma bigFold_none (t : ℝ) :
    (List.range' 0 (65536 - 1 + 1)).foldlM
      (fun (tt : Tracker) (j : Nat) =>
        match encodeKmer (slice (List.replicate 65536 65) j 1) with
        | some c => tt.addKmer c
        | none => pure tt) (freshTracker 1 65536) = none := by
  rw [show (65536 - 1 + 1 : Nat) = 65535 + 1 from rfl, List.range'_succ, List.foldlM_cons]
  simp only [bigEnc, bigAdd_none, Option.bind_eq_bind, Option.none_bind]

lemma maskSequenceArray_none_of_fold_none (seq qual : List Nat) (w : Nat) (t : ℝ) (k : Nat)
    (hL : ¬seq.length < w) (hnt : 1 ≤ k ∧ k ≤ 15 ∧ k < w)
    (hfold : arrayFold seq qual w t k seq.length = none) :
    maskSequenceArray seq qual w t k = none := by
  unfold maskSequenceArray
  rw [if_neg hL]
  rw [show newTracker k w = some (freshTracker k w) from by
    unfold newTracker
    rw [if_pos hnt]]
  unfold arrayFold at hfold
  simp only [Option.bind_eq_bind, Option.some_bind]
  rw [hfold]
  rfl

/-- The dense masker fails outright on a window of 65536 positions with
`k = 1`: `count_counts[0]` is initialized to `window_kmers as u16 = 0`,
so the very first `add_kmer` hits the `count_counts[old_count] ≥ 1`
underflow guard. -/
lemma maskSequenceArray_big_none (t : ℝ) :
    maskSequenceArray (List.replicate 65536 65) (List.replicate 65536 73) 65536 t 1
      = none := by
  have hlen : (List.replicate 65536 (65 : ℕ)).length = 65536 := List.length_replicate _ _
  have hstep : arrayStep (List.replicate 65536 65) 65536 t 1
      ⟨freshTracker 1 65536, true, List.replicate 65536 65, List.replicate 65536 73⟩ 65535
      = none := by
    rw [show (65535 : Nat) = 65536 - 1 from rfl]
    rw [arrayStep_prime (List.replicate 65536 65) 65536 t 1
      ⟨freshTracker 1 65536, true, List.replicate 65536 65, List.replicate 65536 73⟩ rfl
      (by norm_num) (by norm_num)]
    rw [show (⟨freshTracker 1 65536, true, List.replicate 65536 65,
        List.replicate 65536 73⟩ : AState).tr.clear = freshTracker 1 65536 from rfl]
    rw [bigFold_none t]
    rfl
  have hloop : arrayFold (List.replicate 65536 65) (List.replicate 65536 73) 65536 t 1 65536
      = none := by
    rw [arrayFold_pred _ _ _ _ _ 65536 (by norm_num),
      arrayFold_warmup _ _ _ _ _ (65536 - 1) (by norm_num)]
    simp only [Option.some_bind]
    rw [show (65536 - 1 : Nat) = 65535 from rfl]
    exact hstep
  refine maskSequenceArray_none_of_fold_none _ _ _ _ _ ?_
    ⟨by norm_num, by norm_num, by norm_num⟩ ?_
  · rw [hlen]
    omega
  · rw [hlen]
    exact hloop

/-- C1 counterexample: with `k = 1` and window `W = 65536` (so
`W − k + 1 = 65536` truncates to `0` in the `u16` histogram), the dense
backend aborts (`None`, a panic in the Rust build) on a 65536-base
all-`A` read, so it cannot agree with the HashMap backend, which always
returns a pair. -/
theorem c1_backend_equivalence_counterexample :
    maskSequenceArray (List.replicate 65536 65) (List.replicate 65536 73) 65536 (0 : ℝ) 1
      ≠ some (maskSequence (List.replicate 65536 65) (List.replicate 65536 73) 65536
          (0 : ℝ) 1) := by
  rw [maskSequenceArray_big_none 0]
  intro h
  exact Option.noConfusion h

/-- C4 counterexample: the well-formedness conditions of the claim
(`k ≥ 1` within the supported maximum, `W > k`, equal lengths) are all
met with `k = 1`, `W = 65536`, yet `mask_sequence_auto` (which picks the
dense backend for `k ≤ 7`) does not return a masked pair: the tracker's
histogram `u16` arithmetic fails. -/
theorem c4_no_panic_counterexample :
    ¬(maskSequenceAuto (List.replicate 65536 65) (List.replicate 65536 73) 65536
        (0 : ℝ) 1).isSome := by
  unfold maskSequenceAuto
  rw [if_pos (show (1 : Nat) ≤ 7 from by norm_num), maskSequenceArray_big_none 0]
  intro h
  exact Bool.noConfusion h

end RustMask

namespace MaskFastq

/-- `encode_kmer` from `src/mask_fastq/src/lib.rs` (u16 version): the
same packing loop, but any slice longer than 8 bases is rejected up
front. -/
def encodeKmer (bases : List Nat) : Option Nat :=
  if 8 < bases.length then none else RustMask.packBases 0 bases

/-- `add_kmer` of the u16 library. -/
def hmAdd (m : Nat → Nat) (kmer : List Nat) : Nat → Nat :=
  match encodeKmer kmer with
  | some c => Function.update m c (m c + 1)
  | none => m

/-- `remove_kmer` of the u16 library. -/
def hmRemove (m : Nat → Nat) (kmer : List Nat) : Nat → Nat :=
  match encodeKmer kmer with
  | some c => if m c = 0 then m else Function.update m c (m c - 1)
  | none => m

/-- `get_kmers` of the u16 library. -/
def getKmers (seq : List Nat) (k : Nat) : Nat → Nat :=
  if seq.length < k then fun _ => 0
  else (List.range (seq.length - k + 1)).foldl
    (fun m i => hmAdd m (RustMask.slice seq i k)) fun _ => 0

lemma encodeKmer_overlong (bs : List Nat) (h8 : 8 < bs.length) : encodeKmer bs = none := by
  unfold encodeKmer
  rw [if_pos h8]

lemma hmAdd_overlong (m : Nat → Nat) (kmer : List Nat) (h8 : 8 < kmer.length) :
    hmAdd m kmer = m := by
  unfold hmAdd
  rw [encodeKmer_overlong kmer h8]

lemma hmRemove_overlong (m : Nat → Nat) (kmer : List Nat) (h8 : 8 < kmer.length) :
    hmRemove m kmer = m := by
  unfold hmRemove
  rw [encodeKmer_overlong kmer h8]

/-- C10: in the u16 library, `encode_kmer` rejects every slice longer
than 8 bases regardless of its contents; consequently for `k > 8` the
k-mer counting and the incremental add/remove are all silent no-ops, so
every window's counts stay empty. -/
theorem c10_u16_overlong_kmers (bs seq kmer : List Nat) (m : Nat → Nat) (k : Nat)
    (hbs : 8 < bs.length) (hk : 8 < k) (hkm : 8 < kmer.length) :
    encodeKmer bs = none
    ∧ getKmers seq k = (fun _ => 0)
    ∧ hmAdd m kmer = m
    ∧ hmRemove m kmer = m := by
  refine ⟨encodeKmer_overlong bs hbs, ?_, hmAdd_overlong m kmer hkm,
    hmRemove_overlong m kmer hkm⟩
  unfold getKmers
  by_cases hlen : seq.length < k
  · rw [if_pos hlen]
  · rw [if_neg hlen]
    refine RustMask.foldl_fixed _ _ _ fun m2 i hi => ?_
    refine hmAdd_overlong m2 (RustMask.slice seq i k) ?_
    have hi' : i < seq.length - k + 1 := List.mem_range.mp hi
    have hslice : (RustMask.slice seq i k).length = k :=
      RustMask.slice_length seq i k (by omega)
    omega

/-- Witness for C10: a 9-base all-`A` k-mer and `k = 9`. -/
theorem c10_u16_overlong_kmers_witness :
    encodeKmer (List.replicate 9 65) = none
    ∧ getKmers [65, 67] 9 = (fun _ => 0)
    ∧ hmAdd (fun _ => 0) (List.replicate 9 65) = (fun _ => 0)
    ∧ hmRemove (fun _ => 0) (List.replicate 9 65) = (fun _ => 0) :=
  c10_u16_overlong_kmers (List.replicate 9 65) [65, 67] (List.replicate 9 65)
    (fun _ => 0) 9 (by decide) (by decide) (by decide)

end MaskFastq
